import Mathlib

/-!
Verification of the mokapot learning/cross-validation engine
(`src/mokapot/dataset.py` and `src/mokapot/brew.py`) against its
natural-language specification.

The Python code is shallowly embedded: a pandas `DataFrame` becomes a list
of column names plus a list of rows (cells are rationals), `PsmDataset`
wraps such a table, and the randomness of `DataFrame.sample(frac=1)` is
made explicit as a permutation parameter.  Fallible constructors return
`Except`.  Components referenced by the code but absent from the sources
(`mokapot.qvalues.tdc`, `PsmDataset._split`, `_calibrate_scores`,
`assign_confidence`, `Model`) are modelled from the spec and documented as
such at their definitions.
-/

namespace Mokapot

/-- A pandas DataFrame: named columns and rows of rational cells.
Row `r` is aligned with `cols` positionally. -/
structure DataFrame where
  cols : List String
  rows : List (List Rat)
deriving Repr, DecidableEq, Inhabited

/-- A collection of PSMs (`PsmDataset` in `dataset.py`): it stores just the
table `self.data`. -/
structure PsmDataset where
  data : DataFrame
deriving Repr, DecidableEq, Inhabited

/-- The required columns checked by `PsmDataset.__init__`
(`{"label", "scannr", "peptide", "proteins"}`); iteration order of the
Python set does not matter because each rename touches a distinct index. -/
def requiredCols : List String := ["label", "scannr", "peptide", "proteins"]

/-- `self.data.sample(frac=1).reset_index(drop=True)`: the random shuffle of
the rows, with the drawn permutation `perm` made explicit (Python seeds no
RNG here).  `perm` lists, in output order, the original index of each row. -/
def shuffleRows (perm : List Nat) (rows : List (List Rat)) : List (List Rat) :=
  perm.map (fun i => rows.getD i [])

/-- ASCII lower-casing of a character (column names are ASCII, so this
matches Python `str.lower()` on them). -/
def lowerChar (c : Char) : Char :=
  if 'A' ≤ c ∧ c ≤ 'Z' then Char.ofNat (c.toNat + 32) else c

/-- ASCII lower-casing of a string. -/
def lowerString (s : String) : String := ⟨s.data.map lowerChar⟩

/-- `PsmDataset.columns`: all column names lower-cased. -/
def lowerCols (cols : List String) : List String :=
  cols.map lowerString

/-- The column-renaming loop of `PsmDataset.__init__`: for each required
name, the first column whose lower-cased name matches it is replaced by the
canonical lowercase name (`df_cols[cols.index(col_name)] = col_name`). -/
def renameCols (orig : List String) : List String :=
  requiredCols.foldl (fun cs name => cs.set ((lowerCols orig).indexOf name) name) orig

/-- `PsmDataset.__init__`: shuffle the rows (permutation `perm` explicit),
verify the required columns are present case-insensitively, and rename them
to canonical lowercase; raises `ValueError` otherwise. -/
def mkPsmDataset (perm : List Nat) (df : DataFrame) : Except String PsmDataset :=
  let shuffled := shuffleRows perm df.rows
  if requiredCols.all (fun c => c ∈ lowerCols df.cols) then
    .ok ⟨⟨renameCols df.cols, shuffled⟩⟩
  else
    .error "Required columns are missing from the pin file."

/-- Values of the column named `name` (first matching position), as
`self.data.<name>` / positional column access does. -/
def getCol (df : DataFrame) (name : String) : List Rat :=
  df.rows.map (fun r => r.getD (df.cols.indexOf name) 0)

/-- `PsmDataset.label`: the `label` column. -/
def PsmDataset.label (d : PsmDataset) : List Rat :=
  getCol d.data "label"

/-- Start of the feature block (`PsmDataset.features`): the column right
after `calcmass` when present, else right after `scannr`. -/
def featStart (cols : List String) : Nat :=
  if "calcmass" ∈ lowerCols cols then (lowerCols cols).indexOf "calcmass" + 1
  else (lowerCols cols).indexOf "scannr" + 1

/-- End of the feature block: the `peptide` column (exclusive). -/
def featEnd (cols : List String) : Nat :=
  (lowerCols cols).indexOf "peptide"

/-- `PsmDataset.features`: `self.data.iloc[:, feat_start:feat_end]`. -/
def PsmDataset.features (d : PsmDataset) : DataFrame :=
  let fs := featStart d.data.cols
  let fe := featEnd d.data.cols
  ⟨(d.data.cols.drop fs).take (fe - fs),
   d.data.rows.map (fun r => (r.drop fs).take (fe - fs))⟩

/-- Column `j` of a DataFrame, by position. -/
def colVals (df : DataFrame) (j : Nat) : List Rat :=
  df.rows.map (fun r => r.getD j 0)

/-- Suffix minima: position `i` of the result holds the minimum of the
input from position `i` to the end (the q-value monotonisation step). -/
def suffixMins : List Rat → List Rat
  | [] => []
  | x :: xs =>
    match suffixMins xs with
    | [] => [x]
    | y :: ys => min x y :: y :: ys

/-- Running local FDRs along the ranked list: at each rank the ratio
(decoys so far + 1) / (targets so far), targets counted via the 0/1
target vector. -/
def runningFdrs (t d : Rat) : List Rat → List Rat
  | [] => []
  | tg :: rest =>
    let t' := t + tg
    let d' := d + (1 - tg)
    (d' + 1) / t' :: runningFdrs t' d' rest

/-- Modelled from the spec: `mokapot.qvalues.tdc` is imported by
`dataset.py` but its source is not in `src/`.  Per spec section 4.2:
sort indices by descending score (stable, a fixed deterministic
tie-break), compute the running decoys-to-targets ratio with the
small-sample `+1` correction as the local FDR, convert to q-values by a
suffix minimum (monotonic non-decreasing from best to worst), and scatter
back to the original row order.  `target` is the 0/1 target indicator
aligned with `scores`. -/
def tdc (scores : List Rat) (target : List Rat) : List Rat :=
  let n := scores.length
  let ord := (List.range n).insertionSort
    (fun i j => scores.getD j 0 ≤ scores.getD i 0)
  let rankedTargets := ord.map (fun i => target.getD i 0)
  let qRanked := suffixMins (runningFdrs 0 0 rankedTargets)
  (List.range n).map (fun i => qRanked.getD (ord.indexOf i) 0)

/-- The count, per q-value column, of target rows (label 1) with q-value
at most `fdr`: `(targ_qvals <= fdr).sum()` in `find_best_feature`. -/
def passingCount (qvals lab : List Rat) (fdr : Rat) : Nat :=
  ((qvals.zip lab).filter (fun p => p.2 == 1 && p.1 ≤ fdr)).length

/-- `PsmDataset.find_best_feature`: compute per-feature q-values with the
feature values used directly as scores, count targets passing `fdr` per
feature, pick the first feature attaining the maximal count
(`Series.idxmax`), and demote to 0 the targets whose q-value at that
feature exceeds `fdr`.  Returns `none` exactly when there are no feature
columns (where pandas `idxmax` on an empty series raises). -/
def PsmDataset.find_best_feature (d : PsmDataset) (fdr : Rat) :
    Option (String × Nat × List Rat) :=
  let feats := d.features
  let lab := d.label
  let targetVec := lab.map (fun l => (l + 1) / 2)
  let qvals := (List.range feats.cols.length).map
    (fun j => tdc (colVals feats j) targetVec)
  let numPassing := qvals.map (fun q => passingCount q lab fdr)
  if feats.cols.isEmpty then none
  else
    let m := numPassing.foldr max 0
    let bi := numPassing.indexOf m
    let bq := qvals.getD bi []
    let newTarget := (lab.zip bq).map
      (fun p => if p.2 > fdr ∧ p.1 = 1 then 0 else p.1)
    some (feats.cols.getD bi "", numPassing.getD bi 0, newTarget)

/-- Chunk sizes of `numpy.array_split(a, k)` for `n` elements: with
`l = n / k` and `r = n % k`, the first `r` chunks have `l + 1` elements
and the remaining `k - r` chunks have `l`. -/
def arraySplitSizes (n k : Nat) : List Nat :=
  (List.range k).map (fun i => if i < n % k then n / k + 1 else n / k)

/-- Cut a list into consecutive chunks of the given sizes. -/
def chunksOfSizes (xs : List α) : List Nat → List (List α)
  | [] => []
  | s :: rest => xs.take s :: chunksOfSizes (xs.drop s) rest

/-- `numpy.array_split(xs, k)` as a list of chunks. -/
def arraySplit (xs : List α) (k : Nat) : List (List α) :=
  chunksOfSizes xs (arraySplitSizes xs.length k)

/-- The remainder-merge step of `PsmDataset.split`: when the trailing chunk
has fewer than `num` elements, `splits[-2] = concat(splits[-2:])` and the
trailing chunk is dropped. -/
def mergeLast (chunks : List (List α)) (num : Nat) : List (List α) :=
  if (chunks.getLastD []).length < num then
    chunks.dropLast.dropLast ++ [chunks.dropLast.getLastD [] ++ chunks.getLastD []]
  else
    chunks

/-- `PsmDataset.split`: split the stored rows evenly into `folds` chunks
(`np.array_split`), apply the remainder-merge rule with
`num = len(self.label) // folds`, then for each chunk index build the test
set from that chunk and the train set from the concatenation of all other
chunks — each passed back through the `PsmDataset` constructor (which
re-shuffles; the drawn permutations `tp i` / `ep i` are explicit). -/
def PsmDataset.split (d : PsmDataset) (folds : Nat) (tp ep : Nat → List Nat) :
    Except String (List PsmDataset × List PsmDataset) :=
  let num := d.label.length / folds
  let chunks := mergeLast (arraySplit d.data.rows folds) num
  do
    let train ← (List.range chunks.length).mapM
      (fun i => mkPsmDataset (tp i) ⟨d.data.cols, ((chunks.eraseIdx i).flatten)⟩)
    let test ← (List.range chunks.length).mapM
      (fun i => mkPsmDataset (ep i) ⟨d.data.cols, chunks.getD i []⟩)
    return (train, test)

/-- `numpy.argsort` on a list of naturals: the indices of the list, stably
sorted by their values. -/
def argsort (v : List Nat) : List Nat :=
  (List.range v.length).insertionSort (fun i j => v.getD i 0 ≤ v.getD j 0)

/-- Modelled from the spec: `PsmDataset._split` is called by `brew` but its
source is not in `src/` (the file only has the dataset-returning `split`).
Per spec section 4.1 it returns the fold test-index sets: the row indices
are shuffled (permutation `perm` explicit), cut as evenly as possible into
`folds` contiguous chunks, and the trailing chunk is merged into the
second-to-last one when it is smaller than the even-split size. -/
def psmSplitIdx (n folds : Nat) (perm : List Nat) : List (List Nat) :=
  mergeLast (arraySplit perm folds) (n / folds)

/-- The rows of `df` whose index is not in `fold`, in ascending index order:
`dset.data.iloc[list(j - set(i)), :]` in `_make_train_sets` (CPython lists
a set of small naturals in ascending order). -/
def complementRows (df : DataFrame) (fold : List Nat) : List (List Rat) :=
  ((List.range df.rows.length).filter (fun x => x ∉ fold)).map
    (fun r => df.rows.getD r [])

/-- One joint training table of `_make_train_sets`: for every collection,
the rows outside that collection's test set for this fold, concatenated
across collections (`pd.concat(data, ignore_index=True)`). -/
def makeTrainSet (psms : List PsmDataset) (foldIdx : List (List Nat)) : DataFrame :=
  ⟨(psms.headD default).data.cols,
   ((psms.zip foldIdx).map (fun p => complementRows p.1.data p.2)).flatten⟩

/-- Python `zip(*xss)` for lists of fold-index lists: truncates to the
shortest row. -/
def zipFoldIdx (xss : List (List (List Nat))) : List (List (List Nat)) :=
  match xss with
  | [] => []
  | x :: rest =>
    (List.range ((rest.map List.length).foldl min x.length)).map
      (fun i => (x :: rest).map (fun xs => xs.getD i []))

/-- All joint training tables (`_make_train_sets(psms, test_idx)`), one per
fold (`for idx in zip(*test_idx)`). -/
def makeTrainSets (psms : List PsmDataset) (testIdx : List (List (List Nat))) :
    List DataFrame :=
  (zipFoldIdx testIdx).map (makeTrainSet psms)

/-- The per-fold calibrated score lists of `_predict`: for each fold, take
the collection's test rows, score them with that fold's model, and
calibrate at `testFdr` (`test_set._calibrate_scores(mod.predict(test_set),
test_fdr)`).  `predict` and `calibrate` stand for the opaque classifier and
calibration collaborators. -/
def predictFoldScores (predict : M → DataFrame → List Rat)
    (calibrate : DataFrame → List Rat → Rat → List Rat)
    (dset : PsmDataset) (testIdx : List (List Nat)) (models : List M)
    (testFdr : Rat) : List (List Rat) :=
  (testIdx.zip models).map (fun fm =>
    let testData : DataFrame :=
      ⟨dset.data.cols, fm.1.map (fun r => dset.data.rows.getD r [])⟩
    calibrate testData (predict fm.2 testData) testFdr)

/-- `_predict`: concatenate the per-fold score lists and permute them back
into the collection's stored row order with
`rev_idx = np.argsort(sum(test_idx, []))`. -/
def predictScores (predict : M → DataFrame → List Rat)
    (calibrate : DataFrame → List Rat → Rat → List Rat)
    (dset : PsmDataset) (testIdx : List (List Nat)) (models : List M)
    (testFdr : Rat) : List Rat :=
  let scores := predictFoldScores predict calibrate dset testIdx models testFdr
  (argsort testIdx.flatten).map (fun p => scores.flatten.getD p 0)

/-- The fold test-index sets of every collection
(`test_idx = [p._split(folds) for p in psms]`), with each collection's
shuffle permutation given by `sperm`. -/
def brewTestIdx (psmsList : List PsmDataset) (folds : Nat)
    (sperm : Nat → List Nat) : List (List (List Nat)) :=
  (List.range psmsList.length).map
    (fun c => psmSplitIdx ((psmsList.getD c default).data.rows.length) folds (sperm c))

/-- Sequential model training: the sequence of items that the one-shot
iterator `models = map(*map_args)` yields when `max_workers == 1`, in fold
order — each fold fits its own deep copy of the model template on its own
joint training table.  The iterator's single-consumption is modelled where
it is consumed, in `brewScoresIter`. -/
def brewModelsSeq (fit : DataFrame → M → M) (model0 : M)
    (trainSets : List DataFrame) : List M :=
  trainSets.map (fun t => fit t model0)

/-- `numpy` fancy indexing `a[idx]`: an out-of-range index raises. -/
def npIndex (xs : List Rat) (idx : List Nat) : Except String (List Rat) :=
  if idx.all (fun p => decide (p < xs.length)) then
    .ok (idx.map (fun p => xs.getD p 0))
  else
    .error "index out of bounds"

/-- `_predict`, with the one-shot nature of the `models` iterator explicit:
`zip(test_idx, models)` consumes the iterator, so the items left for later
callers are returned alongside the result.  When the iterator is already
exhausted the zip is empty, `scores` stays `[]`, and
`np.concatenate(scores)` raises
`ValueError: need at least one array to concatenate`. -/
def predictOneShot (predict : M → DataFrame → List Rat)
    (calibrate : DataFrame → List Rat → Rat → List Rat)
    (dset : PsmDataset) (testIdx : List (List Nat)) (models : List M)
    (testFdr : Rat) : Except String (List Rat) × List M :=
  let pairs := testIdx.zip models
  let scores := pairs.map (fun fm =>
    let testData : DataFrame :=
      ⟨dset.data.cols, fm.1.map (fun r => dset.data.rows.getD r [])⟩
    calibrate testData (predict fm.2 testData) testFdr)
  (if scores.isEmpty then .error "need at least one array to concatenate"
   else npIndex scores.flatten (argsort testIdx.flatten),
   models.drop pairs.length)

/-- The score list comprehension of `brew`
(`scores = [_predict(p, i, models, test_fdr) for p, i in zip(psms, test_idx)]`):
the one-shot `models` iterator is threaded through the collections in
order, and the first raised exception aborts the whole comprehension. -/
def brewScoresIter (predict : M → DataFrame → List Rat)
    (calibrate : DataFrame → List Rat → Rat → List Rat)
    (pairs : List (PsmDataset × List (List Nat))) (models : List M)
    (testFdr : Rat) : Except String (List (List Rat)) :=
  match pairs with
  | [] => .ok []
  | (p, t) :: rest =>
    match predictOneShot predict calibrate p t models testFdr with
    | (.error e, _) => .error e
    | (.ok s, remaining) =>
      match brewScoresIter predict calibrate rest remaining testFdr with
      | .error e => .error e
      | .ok others => .ok (s :: others)

/-- A Confidence result.  Modelled from the spec: `assign_confidence` (the
Confidence Assigner collaborator, not in `src/`) consumes the pair
(collection, aligned score vector). -/
structure Confidence where
  dset : PsmDataset
  scores : List Rat
deriving Repr, DecidableEq, Inhabited

/-- Modelled from the spec: `p.assign_confidence(s, desc=True)` packages a
collection with its aligned score vector. -/
def assignConfidence (d : PsmDataset) (s : List Rat) : Confidence := ⟨d, s⟩

/-- The input normalization at the top of `brew`: a single non-iterable
collection is wrapped into a singleton list (`psms = [psms]` after the
`iter` TypeError), a sequence is taken as is. -/
def inputList : PsmDataset ⊕ List PsmDataset → List PsmDataset
  | .inl d => [d]
  | .inr ds => ds

/-- `brew`, sequential path (`max_workers == 1`): wrap a single
non-iterable collection into a singleton list, split every collection into
folds, build the one-shot fold-models iterator, and score the collections
in order while consuming that iterator; any exception raised while scoring
propagates and aborts the run.  A single produced result is returned
unwrapped (`if len(res) == 1: return res[0]`). -/
def brew (fit : DataFrame → M → M) (predict : M → DataFrame → List Rat)
    (calibrate : DataFrame → List Rat → Rat → List Rat) (model0 : M)
    (input : PsmDataset ⊕ List PsmDataset) (folds : Nat)
    (sperm : Nat → List Nat) (testFdr : Rat) :
    Except String (Confidence ⊕ List Confidence) :=
  let psmsList := inputList input
  let testIdx := brewTestIdx psmsList folds sperm
  let trainSets := makeTrainSets psmsList testIdx
  let models := brewModelsSeq fit model0 trainSets
  match brewScoresIter predict calibrate (psmsList.zip testIdx) models testFdr with
  | .error e => .error e
  | .ok scores =>
    let res := (psmsList.zip scores).map (fun p => assignConfidence p.1 p.2)
    match res with
    | [r] => .ok (.inl r)
    | rs => .ok (.inr rs)

/-- The process-pool path's model training with the deferred-pickling race
explicit: `Executor.map` eagerly submits every fold, fully advancing the
`_make_train_sets` generator — which keeps mutating the one shared
shallow-copied `train_set._data` — while each submitted work item is only
pickled later, in the executor's queue-management thread.  At pickle time
the shared object holds the table of the latest generator step, so fold
`i` is trained on `trainSets[snap i]`, where the reachable snapshot
functions satisfy `i ≤ snap i < folds` (with `snap i = folds - 1`, the
last fold's table, as the common case; the transient `None` state between
reassignments is omitted, as late snapshots alone already decide the
claims).  Results are still collected in fold-index order, which
`Executor.map` guarantees. -/
def brewModelsPoolRace (snap : Nat → Nat) (fit : DataFrame → M → M)
    (model0 : M) (trainSets : List DataFrame) : List M :=
  (List.range trainSets.length).map
    (fun i => fit (trainSets.getD (snap i) default) model0)

/-- `brew` along the process-pool path (`max_workers` at least the fold
count): identical to the sequential path except that each fold's model is
fitted on the table captured at that fold's pickling snapshot `snap`. -/
def brewPoolRace (snap : Nat → Nat) (fit : DataFrame → M → M)
    (predict : M → DataFrame → List Rat)
    (calibrate : DataFrame → List Rat → Rat → List Rat) (model0 : M)
    (input : PsmDataset ⊕ List PsmDataset) (folds : Nat)
    (sperm : Nat → List Nat) (testFdr : Rat) :
    Except String (Confidence ⊕ List Confidence) :=
  let psmsList := inputList input
  let testIdx := brewTestIdx psmsList folds sperm
  let trainSets := makeTrainSets psmsList testIdx
  let models := brewModelsPoolRace snap fit model0 trainSets
  match brewScoresIter predict calibrate (psmsList.zip testIdx) models testFdr with
  | .error e => .error e
  | .ok scores =>
    let res := (psmsList.zip scores).map (fun p => assignConfidence p.1 p.2)
    match res with
    | [r] => .ok (.inl r)
    | rs => .ok (.inr rs)

/-! ### A heap model of the object-level mutation in `brew.py`

`_make_train_sets` and `_predict` shallow-copy a `PsmDataset` object and
then repeatedly reassign the copy's `_data` attribute, and `brew`
deep-copies the caller's `Model` once per fold before `model.fit` mutates
it.  To check the frame property (the caller's objects are never mutated)
we model the objects explicitly: a heap is a list of tables indexed by
object id, `copy.copy` allocates a fresh id holding the same table, and an
attribute assignment updates exactly one id's slot. -/

/-- A heap of `PsmDataset` objects: slot `i` is the `_data` table of the
object with id `i`. -/
abbrev Heap := List DataFrame

/-- Read the `_data` table of object `i`. -/
def heapGet (h : Heap) (i : Nat) : DataFrame := h.getD i default

/-- `copy.copy(obj)`: allocate a new object whose `_data` is the same
table; returns the heap and the new id. -/
def copyObj (h : Heap) (i : Nat) : Heap × Nat := (h ++ [heapGet h i], h.length)

/-- `obj._data = tbl`: update exactly object `i`'s slot. -/
def setData (h : Heap) (i : Nat) (tbl : DataFrame) : Heap := h.set i tbl

/-- One joint training table, reading each collection's table from the
heap at assembly time. -/
def makeTrainSetH (h : Heap) (psms : List Nat) (foldIdx : List (List Nat)) :
    DataFrame :=
  ⟨(heapGet h (psms.getD 0 0)).cols,
   ((psms.zip foldIdx).map (fun p => complementRows (heapGet h p.1) p.2)).flatten⟩

/-- `_make_train_sets` in the heap model: shallow-copy `psms[0]`, then for
each fold clear the copy's `_data` (`train_set._data = None`, modelled as
the empty table), build the joint training table from the original
collections' rows and store it in the copy.  Returns the final heap and
the table each consumer of the generator observed. -/
def makeTrainSetsH (h : Heap) (psms : List Nat)
    (testIdx : List (List (List Nat))) : Heap × List DataFrame :=
  let cp := copyObj h (psms.getD 0 0)
  (zipFoldIdx testIdx).foldl
    (fun acc foldIdx =>
      let h1 := setData acc.1 cp.2 default
      let tbl := makeTrainSetH h1 psms foldIdx
      (setData h1 cp.2 tbl, acc.2 ++ [tbl]))
    (cp.1, [])

/-- `_predict` in the heap model: shallow-copy the collection, and for each
fold store that fold's test rows in the copy (`test_set._data =
dset.data.iloc[list(fold), :]`), score and calibrate them; finally permute
the concatenated scores back into stored row order. -/
def predictH (predict : M → DataFrame → List Rat)
    (calibrate : DataFrame → List Rat → Rat → List Rat) (h : Heap)
    (dsetId : Nat) (testIdx : List (List Nat)) (models : List M)
    (testFdr : Rat) : Heap × List Rat :=
  let cp := copyObj h dsetId
  let go := (testIdx.zip models).foldl
    (fun acc fm =>
      let testTbl : DataFrame :=
        ⟨(heapGet acc.1 dsetId).cols,
         fm.1.map (fun r => (heapGet acc.1 dsetId).rows.getD r [])⟩
      let h1 := setData acc.1 cp.2 testTbl
      let s := calibrate testTbl (predict fm.2 testTbl) testFdr
      (h1, acc.2 ++ [s]))
    (cp.1, ([] : List (List Rat)))
  (go.1, (argsort testIdx.flatten).map (fun p => go.2.flatten.getD p 0))

/-- Per-fold model training in the heap model: a heap of `Model` objects,
one `copy.deepcopy(model)` per fold, and `model.fit` mutating only the
fresh copy's slot before `_fit_model` returns that same object. -/
def brewModelsH [Inhabited M] (fit : DataFrame → M → M) (mh : List M)
    (tmpl : Nat) (trainSets : List DataFrame) : List M × List Nat :=
  trainSets.foldl
    (fun acc t =>
      let mh1 := acc.1 ++ [acc.1.getD tmpl default]
      let ni := acc.1.length
      (mh1.set ni (fit t (mh1.getD ni default)), acc.2 ++ [ni]))
    (mh, [])

/-- `brew` in the heap model: split each collection, build joint training
tables, train one deep-copied model per fold, and score each collection
out-of-fold.  Returns the final dataset heap, the final model heap, and
the per-collection score vectors. -/
def brewH [Inhabited M] (fit : DataFrame → M → M)
    (predict : M → DataFrame → List Rat)
    (calibrate : DataFrame → List Rat → Rat → List Rat) (h : Heap)
    (psms : List Nat) (mh : List M) (tmpl : Nat) (folds : Nat)
    (sperm : Nat → List Nat) (testFdr : Rat) :
    Heap × List M × List (List Rat) :=
  let testIdx := (List.range psms.length).map
    (fun c => psmSplitIdx (heapGet h (psms.getD c 0)).rows.length folds (sperm c))
  let mts := makeTrainSetsH h psms testIdx
  let bm := brewModelsH fit mh tmpl mts.2
  let models := bm.2.map (fun i => bm.1.getD i default)
  let go := (psms.zip testIdx).foldl
    (fun acc pi =>
      let pr := predictH predict calibrate acc.1 pi.1 pi.2 models testFdr
      (pr.1, acc.2 ++ [pr.2]))
    (mts.1, ([] : List (List Rat)))
  (go.1, bm.1, go.2)

/-! ### General list helpers -/

theorem getD_set_ne (l : List α) (i j : Nat) (a d : α) (h : i ≠ j) :
    (l.set i a).getD j d = l.getD j d := by
  by_cases hj : j < l.length
  · rw [List.getD_eq_getElem _ _ (by simpa using hj),
      List.getD_eq_getElem _ _ hj, List.getElem_set_ne h]
  · rw [List.getD_eq_default _ _ (by simpa using Nat.le_of_not_lt hj),
      List.getD_eq_default _ _ (Nat.le_of_not_lt hj)]

theorem getD_set_self (l : List α) (i : Nat) (a d : α) (h : i < l.length) :
    (l.set i a).getD i d = a := by
  rw [List.getD_eq_getElem _ _ (by simpa using h)]
  simp

theorem map_getD_range (xs : List α) (d : α) :
    (List.range xs.length).map (fun i => xs.getD i d) = xs := by
  apply List.ext_getElem
  · simp
  · intro n h₁ h₂
    simp only [List.getElem_map, List.getElem_range]
    exact List.getD_eq_getElem xs d h₂

/-- Applying a permutation of the index range to `shuffleRows` preserves the
rows as a multiset. -/
theorem shuffleRows_perm (perm : List Nat) (rows : List (List Rat))
    (hp : perm.Perm (List.range rows.length)) :
    (shuffleRows perm rows).Perm rows := by
  have h1 : (shuffleRows perm rows).Perm
      ((List.range rows.length).map (fun i => rows.getD i [])) :=
    hp.map _
  rwa [map_getD_range] at h1

/-! ### C6: schema validation at construction -/

theorem foldl_set_getD_untouched (L names cs : List String) (q : Nat)
    (h : ∀ n ∈ names, L.indexOf n ≠ q) :
    (names.foldl (fun cs n => cs.set (L.indexOf n) n) cs).getD q "" =
      cs.getD q "" := by
  induction names generalizing cs with
  | nil => rfl
  | cons n₀ rest ih =>
    simp only [List.foldl_cons]
    rw [ih _ (fun n hn => h n (List.mem_cons_of_mem _ hn)),
      getD_set_ne _ _ _ _ _ (h n₀ (List.mem_cons_self _ _))]

theorem foldl_set_getD_mem (L names cs : List String)
    (hinj : ∀ m ∈ names, ∀ n ∈ names, L.indexOf m = L.indexOf n → m = n)
    (hpos : ∀ n ∈ names, L.indexOf n < cs.length) :
    ∀ name ∈ names,
      (names.foldl (fun cs n => cs.set (L.indexOf n) n) cs).getD
        (L.indexOf name) "" = name := by
  induction names generalizing cs with
  | nil => intro name hn; cases hn
  | cons n₀ rest ih =>
    intro name hn
    simp only [List.foldl_cons]
    rcases List.mem_cons.mp hn with rfl | hmem
    · by_cases hrest : name ∈ rest
      · exact ih _
          (fun m hm n hn h => hinj m (List.mem_cons_of_mem _ hm)
            n (List.mem_cons_of_mem _ hn) h)
          (fun n hn => by
            simpa using hpos n (List.mem_cons_of_mem _ hn))
          name hrest
      · rw [foldl_set_getD_untouched _ _ _ _
          (fun n hn h => hrest (by
            have := hinj n (List.mem_cons_of_mem _ hn) name
              (List.mem_cons_self _ _) h
            rwa [this] at hn))]
        exact getD_set_self _ _ _ _ (hpos name (List.mem_cons_self _ _))
    · exact ih _
        (fun m hm n hn h => hinj m (List.mem_cons_of_mem _ hm)
          n (List.mem_cons_of_mem _ hn) h)
        (fun n hn => by simpa using hpos n (List.mem_cons_of_mem _ hn))
        name hmem

/-- C6: for every input table, constructing a `PsmDataset` succeeds iff the
table contains, case-insensitively, the columns label, scannr, peptide and
proteins; when one is missing a `ValueError` is raised and no object is
returned, and on success each of the four columns is renamed to its
canonical lowercase name at the position where it was first found
case-insensitively. -/
theorem construction_schema (perm : List Nat) (df : DataFrame) :
    ((∃ d, mkPsmDataset perm df = .ok d) ↔
      ∀ name ∈ requiredCols, name ∈ lowerCols df.cols) ∧
    ((¬ ∀ name ∈ requiredCols, name ∈ lowerCols df.cols) →
      mkPsmDataset perm df =
        .error "Required columns are missing from the pin file.") ∧
    (∀ d, mkPsmDataset perm df = .ok d →
      d.data.cols = renameCols df.cols ∧
      ∀ name ∈ requiredCols,
        d.data.cols.getD ((lowerCols df.cols).indexOf name) "" = name) := by
  have hallstm : (requiredCols.all (fun c => decide (c ∈ lowerCols df.cols)) = true)
      ↔ ∀ name ∈ requiredCols, name ∈ lowerCols df.cols := by
    simp [List.all_eq_true]
  refine ⟨?_, ?_, ?_⟩
  · constructor
    · rintro ⟨d, hd⟩
      by_contra hmiss
      rw [mkPsmDataset, if_neg (fun h => hmiss (hallstm.mp h))] at hd
      cases hd
    · intro hall
      exact ⟨_, by rw [mkPsmDataset, if_pos (hallstm.mpr hall)]⟩
  · intro hmiss
    rw [mkPsmDataset, if_neg (fun h => hmiss (hallstm.mp h))]
  · intro d hd
    by_cases hall : ∀ name ∈ requiredCols, name ∈ lowerCols df.cols
    · rw [mkPsmDataset, if_pos (hallstm.mpr hall)] at hd
      cases hd
      refine ⟨rfl, ?_⟩
      intro name hname
      have hpos : ∀ n ∈ requiredCols,
          (lowerCols df.cols).indexOf n < df.cols.length := by
        intro n hn
        have := List.indexOf_lt_length.mpr (hall n hn)
        simpa [lowerCols] using this
      have hinj : ∀ m ∈ requiredCols, ∀ n ∈ requiredCols,
          (lowerCols df.cols).indexOf m = (lowerCols df.cols).indexOf n →
            m = n := by
        intro m hm n hn h
        have hm' := List.getElem_indexOf
          (List.indexOf_lt_length.mpr (hall m hm))
        have hn' := List.getElem_indexOf
          (List.indexOf_lt_length.mpr (hall n hn))
        rw [← hm', ← hn']
        congr 1
      exact foldl_set_getD_mem (lowerCols df.cols) requiredCols df.cols
        hinj hpos name hname
    · rw [mkPsmDataset, if_neg (fun h => hall (hallstm.mp h))] at hd
      cases hd

/-- Witness for C6 at a concrete table with mixed-case headers. -/
theorem construction_schema_witness :
    ∃ d, mkPsmDataset [0]
      ⟨["SpecId", "Label", "ScanNr", "f1", "Peptide", "Proteins"],
       [[0, 1, 7, 5, 0, 0]]⟩ = .ok d ∧
      d.data.cols = ["SpecId", "label", "scannr", "f1", "peptide", "proteins"] := by
  have h := construction_schema [0]
    ⟨["SpecId", "Label", "ScanNr", "f1", "Peptide", "Proteins"],
     [[0, 1, 7, 5, 0, 0]]⟩
  obtain ⟨d, hd⟩ := h.1.mpr (by decide)
  exact ⟨d, hd, by
    have := (h.2.2 d hd).1
    rw [this]
    rfl⟩

/-! ### C10: the constructor shuffles; split re-shuffles each partition -/

theorem mapM_ok_of_forall {α β : Type} (l : List α) (f : α → Except String β)
    (g : α → β) (h : ∀ a ∈ l, f a = .ok (g a)) : l.mapM f = .ok (l.map g) := by
  induction l with
  | nil => rfl
  | cons a l ih =>
    rw [List.mapM_cons, h a (List.mem_cons_self _ _),
      ih (fun x hx => h x (List.mem_cons_of_mem _ hx))]
    rfl

theorem mapM_error_head {α β : Type} (a : α) (l : List α)
    (f : α → Except String β) (e : String) (h : f a = .error e) :
    (a :: l).mapM f = .error e := by
  rw [List.mapM_cons, h]
  rfl

theorem getD_map_range (g : Nat → α) (m i : Nat) (d : α) (h : i < m) :
    ((List.range m).map g).getD i d = g i := by
  rw [List.getD_eq_getElem _ _ (by simpa using h)]
  simp

/-- Forward evaluation of `PsmDataset.split` when the stored table has the
required columns: every inner constructor call succeeds and the train/test
collections are the re-shuffled chunk concatenations. -/
theorem split_eq_of_valid (d : PsmDataset) (k : Nat) (tp ep : Nat → List Nat)
    (hcols : requiredCols.all (fun c => decide (c ∈ lowerCols d.data.cols)) = true) :
    d.split k tp ep = .ok
      ((List.range (mergeLast (arraySplit d.data.rows k) (d.label.length / k)).length).map
        (fun i => (⟨⟨renameCols d.data.cols,
          shuffleRows (tp i)
            (((mergeLast (arraySplit d.data.rows k) (d.label.length / k)).eraseIdx i).flatten)⟩⟩ :
          PsmDataset)),
       (List.range (mergeLast (arraySplit d.data.rows k) (d.label.length / k)).length).map
        (fun i => (⟨⟨renameCols d.data.cols,
          shuffleRows (ep i)
            ((mergeLast (arraySplit d.data.rows k) (d.label.length / k)).getD i [])⟩⟩ :
          PsmDataset))) := by
  simp only [PsmDataset.split]
  rw [mapM_ok_of_forall _ _
    (fun i => (⟨⟨renameCols d.data.cols,
      shuffleRows (tp i)
        (((mergeLast (arraySplit d.data.rows k) (d.label.length / k)).eraseIdx i).flatten)⟩⟩ :
      PsmDataset))
    (fun i _ => by rw [mkPsmDataset, if_pos hcols])]
  rw [mapM_ok_of_forall _ _
    (fun i => (⟨⟨renameCols d.data.cols,
      shuffleRows (ep i)
        ((mergeLast (arraySplit d.data.rows k) (d.label.length / k)).getD i [])⟩⟩ :
      PsmDataset))
    (fun i _ => by rw [mkPsmDataset, if_pos hcols])]
  rfl

/-- C10: the rows stored by a newly constructed `PsmDataset` are the input
rows permuted by the (unseeded) shuffle drawn at construction — the
multiset of rows is preserved but the order is the drawn permutation — and
`split` passes every train and test partition back through the
constructor, so each partition's internal row order is re-randomized by a
fresh permutation of that partition's chunk content. -/
theorem construction_shuffles (perm : List Nat) (df : DataFrame) :
    (∀ d, mkPsmDataset perm df = .ok d →
      d.data.rows = shuffleRows perm df.rows ∧
      (perm.Perm (List.range df.rows.length) → d.data.rows.Perm df.rows)) ∧
    (∀ (d : PsmDataset) (k : Nat) (tp ep : Nat → List Nat)
        (tr te : List PsmDataset),
      d.split k tp ep = .ok (tr, te) →
      ∀ i < te.length,
        (te.getD i default).data.rows =
          shuffleRows (ep i)
            ((mergeLast (arraySplit d.data.rows k) (d.label.length / k)).getD i []) ∧
        (tr.getD i default).data.rows =
          shuffleRows (tp i)
            (((mergeLast (arraySplit d.data.rows k) (d.label.length / k)).eraseIdx i).flatten)) := by
  constructor
  · intro d hd
    by_cases hall : requiredCols.all (fun c => decide (c ∈ lowerCols df.cols)) = true
    · rw [mkPsmDataset, if_pos hall] at hd
      cases hd
      exact ⟨rfl, fun hp => shuffleRows_perm perm df.rows hp⟩
    · rw [mkPsmDataset, if_neg hall] at hd
      cases hd
  · intro d k tp ep tr te hsp i hi
    by_cases hall : requiredCols.all (fun c => decide (c ∈ lowerCols d.data.cols)) = true
    · rw [split_eq_of_valid d k tp ep hall] at hsp
      injection hsp with hsp
      have htr : tr = _ := congrArg Prod.fst hsp.symm
      have hte : te = _ := congrArg Prod.snd hsp.symm
      subst htr
      subst hte
      have hi' : i < (mergeLast (arraySplit d.data.rows k) (d.label.length / k)).length := by
        simpa using hi
      rw [getD_map_range _ _ _ _ hi', getD_map_range _ _ _ _ hi']
      exact ⟨rfl, rfl⟩
    · rcases Nat.eq_zero_or_pos
        (mergeLast (arraySplit d.data.rows k) (d.label.length / k)).length with hz | hpos
      · simp only [PsmDataset.split] at hsp
        rw [hz] at hsp
        simp only [List.range_zero, List.mapM_nil] at hsp
        have h2 : Except.ok (([] : List PsmDataset), ([] : List PsmDataset)) =
            Except.ok (tr, te) := hsp
        injection h2 with h3
        have hte : te = [] := (congrArg Prod.snd h3).symm
        rw [hte] at hi
        simp at hi
      · exfalso
        obtain ⟨m, hm⟩ := Nat.exists_eq_succ_of_ne_zero (Nat.pos_iff_ne_zero.mp hpos)
        simp only [PsmDataset.split] at hsp
        rw [hm, List.range_succ_eq_map,
          mapM_error_head _ _ _ "Required columns are missing from the pin file."
            (by rw [mkPsmDataset, if_neg hall])] at hsp
        exact Except.noConfusion
          (show Except.error "Required columns are missing from the pin file." =
            Except.ok (tr, te) from hsp)

/-- Witness for C10: a two-row table constructed with the swap permutation
stores the rows swapped (same multiset), and a concrete split re-shuffles
its test partition with the partition's own permutation. -/
theorem construction_shuffles_witness :
    (∃ d, mkPsmDataset [1, 0]
        ⟨["Label", "ScanNr", "Peptide", "Proteins"], [[1, 1, 0, 0], [-1, 2, 0, 0]]⟩ = .ok d ∧
      d.data.rows = [[-1, 2, 0, 0], [1, 1, 0, 0]] ∧
      d.data.rows.Perm [[1, 1, 0, 0], [-1, 2, 0, 0]]) ∧
    (∃ tr te, (⟨⟨["label", "scannr", "peptide", "proteins"],
        [[1, 1, 0, 0], [-1, 2, 0, 0], [1, 3, 0, 0], [-1, 4, 0, 0]]⟩⟩ : PsmDataset).split 2
        (fun _ => [0, 1]) (fun _ => [1, 0]) = .ok (tr, te) ∧
      (te.getD 0 default).data.rows = [[-1, 2, 0, 0], [1, 1, 0, 0]]) := by
  constructor
  · refine ⟨_, rfl, ?_, ?_⟩
    · have h := (construction_shuffles [1, 0]
        ⟨["Label", "ScanNr", "Peptide", "Proteins"], [[1, 1, 0, 0], [-1, 2, 0, 0]]⟩).1 _ rfl
      rw [h.1]
      rfl
    · exact ((construction_shuffles [1, 0]
        ⟨["Label", "ScanNr", "Peptide", "Proteins"], [[1, 1, 0, 0], [-1, 2, 0, 0]]⟩).1 _ rfl).2
        (by decide)
  · have hsplit : (⟨⟨["label", "scannr", "peptide", "proteins"],
        [[1, 1, 0, 0], [-1, 2, 0, 0], [1, 3, 0, 0], [-1, 4, 0, 0]]⟩⟩ : PsmDataset).split 2
        (fun _ => [0, 1]) (fun _ => [1, 0]) = .ok
        ([⟨⟨["label", "scannr", "peptide", "proteins"], [[1, 3, 0, 0], [-1, 4, 0, 0]]⟩⟩,
          ⟨⟨["label", "scannr", "peptide", "proteins"], [[1, 1, 0, 0], [-1, 2, 0, 0]]⟩⟩],
         [⟨⟨["label", "scannr", "peptide", "proteins"], [[-1, 2, 0, 0], [1, 1, 0, 0]]⟩⟩,
          ⟨⟨["label", "scannr", "peptide", "proteins"], [[-1, 4, 0, 0], [1, 3, 0, 0]]⟩⟩]) := by
      rfl
    refine ⟨_, _, hsplit, ?_⟩
    have h := (construction_shuffles [] default).2
      (⟨⟨["label", "scannr", "peptide", "proteins"],
        [[1, 1, 0, 0], [-1, 2, 0, 0], [1, 3, 0, 0], [-1, 4, 0, 0]]⟩⟩ : PsmDataset) 2
      (fun _ => [0, 1]) (fun _ => [1, 0]) _ _ hsplit 0 (by decide)
    rw [h.1]
    rfl

/-! ### C2: fold partitioning -/

theorem chunksOfSizes_flatten (xs : List α) (ss : List Nat) :
    (chunksOfSizes xs ss).flatten = xs.take ss.sum := by
  induction ss generalizing xs with
  | nil => simp [chunksOfSizes]
  | cons s rest ih =>
    simp only [chunksOfSizes, List.flatten_cons, ih, List.sum_cons]
    rw [List.take_add]

theorem chunksOfSizes_length (xs : List α) (ss : List Nat) :
    (chunksOfSizes xs ss).length = ss.length := by
  induction ss generalizing xs with
  | nil => rfl
  | cons s rest ih => simp [chunksOfSizes, ih]

theorem chunksOfSizes_lengths (xs : List α) (ss : List Nat)
    (h : ss.sum ≤ xs.length) :
    (chunksOfSizes xs ss).map List.length = ss := by
  induction ss generalizing xs with
  | nil => rfl
  | cons s rest ih =>
    simp only [List.sum_cons] at h
    simp only [chunksOfSizes, List.map_cons]
    have h1 : (List.take s xs).length = s := by
      simp only [List.length_take]
      omega
    rw [h1, ih (xs.drop s) (by simp; omega)]

theorem sum_map_range_if (a r k : Nat) :
    (((List.range k).map (fun i => if i < r then a + 1 else a)).sum) =
      k * a + min r k := by
  induction k with
  | zero => simp
  | succ m ih =>
    rw [List.range_succ, List.map_append, List.sum_append]
    simp only [List.map_cons, List.map_nil, List.sum_cons, List.sum_nil, ih]
    have hma : (m + 1) * a = m * a + a := by ring
    by_cases h : m < r
    · rw [if_pos h, Nat.min_eq_right (by omega : m ≤ r),
        Nat.min_eq_right (by omega : m + 1 ≤ r)]
      omega
    · rw [if_neg h, Nat.min_eq_left (by omega : r ≤ m),
        Nat.min_eq_left (by omega : r ≤ m + 1)]
      omega

theorem arraySplitSizes_sum (n k : Nat) (hk : 0 < k) :
    (arraySplitSizes n k).sum = n := by
  rw [arraySplitSizes, sum_map_range_if]
  have h1 : n % k < k := Nat.mod_lt _ hk
  have h2 := Nat.div_add_mod n k
  omega

theorem arraySplitSizes_length (n k : Nat) : (arraySplitSizes n k).length = k := by
  simp [arraySplitSizes]

theorem arraySplit_flatten (xs : List α) (k : Nat) (hk : 0 < k) :
    (arraySplit xs k).flatten = xs := by
  rw [arraySplit, chunksOfSizes_flatten, arraySplitSizes_sum _ _ hk,
    List.take_length]

theorem arraySplit_length (xs : List α) (k : Nat) : (arraySplit xs k).length = k := by
  rw [arraySplit, chunksOfSizes_length, arraySplitSizes_length]

theorem getLastD_map (f : α → β) (l : List α) (d : α) :
    (l.map f).getLastD (f d) = f (l.getLastD d) := by
  induction l generalizing d with
  | nil => rfl
  | cons a l ih =>
    simp only [List.map_cons, List.getLastD_cons]
    exact ih a

theorem arraySplitSizes_getLastD (n k : Nat) (hk : 0 < k) :
    (arraySplitSizes n k).getLastD 0 = n / k := by
  obtain ⟨m, hm⟩ := Nat.exists_eq_succ_of_ne_zero (Nat.pos_iff_ne_zero.mp hk)
  subst hm
  rw [arraySplitSizes, List.range_succ, List.map_append]
  simp only [List.map_cons, List.map_nil]
  rw [List.getLastD_concat]
  have : ¬ m < n % (m + 1) := by
    have h3 : n % (m + 1) < m + 1 := Nat.mod_lt n (by omega)
    omega
  rw [if_neg this]

/-- The trailing chunk of `np.array_split` always has exactly the
even-split size `n / k`, so the remainder-merge branch of
`PsmDataset.split` never fires. -/
theorem arraySplit_no_merge (xs : List α) (k : Nat) (hk : 0 < k) :
    mergeLast (arraySplit xs k) (xs.length / k) = arraySplit xs k := by
  rw [mergeLast, if_neg]
  rw [Nat.not_lt]
  have h1 : ((arraySplit xs k).map List.length).getLastD (List.length ([] : List α)) =
      List.length ((arraySplit xs k).getLastD []) := getLastD_map _ _ _
  have h2 : (arraySplit xs k).map List.length = arraySplitSizes xs.length k := by
    rw [arraySplit]
    exact chunksOfSizes_lengths _ _ (by rw [arraySplitSizes_sum _ _ hk])
  rw [h2] at h1
  simp only [List.length_nil] at h1
  rw [← h1, arraySplitSizes_getLastD _ _ hk]

/-- C2: for every PSM collection of `n` rows and fold count `k ≥ 2`,
`split` succeeds and its test partitions are pairwise disjoint (as row
index ranges) with union exactly the `n` stored rows; train partition `i`
is the concatenation of all chunks except chunk `i` (as a multiset, since
each partition is re-shuffled by its own constructor call); and the
remainder-merge step, exactly as implemented, merges the trailing chunk
into the second-to-last one and drops the partition count by one whenever
the trailing chunk is smaller than the even-split size. -/
theorem split_folds (d : PsmDataset) (k : Nat) (tp ep : Nat → List Nat)
    (hk : 2 ≤ k)
    (hcols : requiredCols.all (fun c => decide (c ∈ lowerCols d.data.cols)) = true)
    (hep : ∀ i < k, (ep i).Perm
      (List.range ((arraySplit d.data.rows k).getD i []).length))
    (htp : ∀ i < k, (tp i).Perm
      (List.range (((arraySplit d.data.rows k).eraseIdx i).flatten.length))) :
    ∃ tr te, d.split k tp ep = .ok (tr, te) ∧
      te.length = k ∧ tr.length = k ∧
      (arraySplit d.data.rows k).flatten = d.data.rows ∧
      (te.map (fun t => t.data.rows.length)).sum = d.data.rows.length ∧
      List.Pairwise List.Disjoint (arraySplit (List.range d.data.rows.length) k) ∧
      (arraySplit (List.range d.data.rows.length) k).flatten =
        List.range d.data.rows.length ∧
      (∀ i < k, (te.getD i default).data.rows.Perm
        ((arraySplit d.data.rows k).getD i [])) ∧
      (∀ i < k, (tr.getD i default).data.rows.Perm
        (((arraySplit d.data.rows k).eraseIdx i).flatten)) ∧
      (∀ (cs : List (List (List Rat))) (num : Nat), 2 ≤ cs.length →
        (cs.getLastD []).length < num →
        mergeLast cs num = cs.dropLast.dropLast ++
          [cs.dropLast.getLastD [] ++ cs.getLastD []] ∧
        (mergeLast cs num).length = cs.length - 1) := by
  have hk0 : 0 < k := by omega
  have hlab : d.label.length = d.data.rows.length := by
    simp [PsmDataset.label, getCol]
  have hnm : mergeLast (arraySplit d.data.rows k) (d.label.length / k) =
      arraySplit d.data.rows k := by
    rw [hlab]
    exact arraySplit_no_merge _ _ hk0
  have hlen : (arraySplit d.data.rows k).length = k := arraySplit_length _ _
  refine ⟨_, _, split_eq_of_valid d k tp ep hcols, ?_, ?_, ?_, ?_, ?_, ?_, ?_, ?_, ?_⟩
  · simp [hnm, hlen]
  · simp [hnm, hlen]
  · exact arraySplit_flatten _ _ hk0
  · rw [List.map_map]
    have hmaps : ((List.range (mergeLast (arraySplit d.data.rows k)
        (d.label.length / k)).length).map
        ((fun t => t.data.rows.length) ∘ (fun i => (⟨⟨renameCols d.data.cols,
          shuffleRows (ep i)
            ((mergeLast (arraySplit d.data.rows k) (d.label.length / k)).getD i [])⟩⟩ :
          PsmDataset)))) =
        (arraySplit d.data.rows k).map List.length := by
      rw [hnm, hlen]
      apply List.ext_getElem
      · simp [hlen]
      · intro i h1 h2
        simp only [List.getElem_map, List.getElem_range, Function.comp]
        have hpe := hep i (by simpa using h1)
        simp only [shuffleRows, List.length_map]
        rw [hpe.length_eq, List.length_range]
        rw [List.getD_eq_getElem _ _ (by simpa [hlen] using h1)]
    rw [hmaps]
    have : (arraySplit d.data.rows k).map List.length =
        arraySplitSizes d.data.rows.length k :=
      chunksOfSizes_lengths _ _ (by rw [arraySplitSizes_sum _ _ hk0])
    rw [this, arraySplitSizes_sum _ _ hk0]
  · have hnd : (arraySplit (List.range d.data.rows.length) k).flatten.Nodup := by
      rw [arraySplit_flatten _ _ hk0]
      exact List.nodup_range _
    exact (List.nodup_flatten.mp hnd).2
  · exact arraySplit_flatten _ _ hk0
  · intro i hi
    rw [getD_map_range _ _ _ _ (by simp [hnm, hlen]; omega)]
    simp only [hnm]
    exact shuffleRows_perm _ _ (hep i hi)
  · intro i hi
    rw [getD_map_range _ _ _ _ (by simp [hnm, hlen]; omega)]
    simp only [hnm]
    exact shuffleRows_perm _ _ (htp i hi)
  · intro cs num hlen2 hsmall
    refine ⟨if_pos hsmall, ?_⟩
    rw [mergeLast, if_pos hsmall]
    simp only [List.length_append, List.length_dropLast, List.length_cons,
      List.length_nil]
    omega

/-- Witness for C2 at a six-row collection with three folds. -/
theorem split_folds_witness :
    ∃ tr te, (⟨⟨["label", "scannr", "peptide", "proteins"],
      [[1, 1, 0, 0], [-1, 2, 0, 0], [1, 3, 0, 0], [-1, 4, 0, 0], [1, 5, 0, 0],
       [-1, 6, 0, 0]]⟩⟩ : PsmDataset).split 3 (fun _ => [0, 1, 2, 3])
      (fun _ => [0, 1]) = .ok (tr, te) ∧
      te.length = 3 ∧ tr.length = 3 ∧
      (te.map (fun t => t.data.rows.length)).sum = 6 := by
  obtain ⟨tr, te, h1, h2, h3, _, h5, _⟩ :=
    split_folds (⟨⟨["label", "scannr", "peptide", "proteins"],
      [[1, 1, 0, 0], [-1, 2, 0, 0], [1, 3, 0, 0], [-1, 4, 0, 0], [1, 5, 0, 0],
       [-1, 6, 0, 0]]⟩⟩ : PsmDataset) 3 (fun _ => [0, 1, 2, 3]) (fun _ => [0, 1])
      (by omega) (by decide) (by decide) (by decide)
  exact ⟨tr, te, h1, h2, h3, h5⟩

/-! ### C4 and C5: best-direction selection -/

theorem le_foldr_max (l : List Nat) (x : Nat) (hx : x ∈ l) :
    x ≤ l.foldr max 0 := by
  induction l with
  | nil => cases hx
  | cons a l ih =>
    simp only [List.foldr_cons]
    rcases List.mem_cons.mp hx with rfl | h
    · exact Nat.le_max_left _ _
    · exact Nat.le_trans (ih h) (Nat.le_max_right _ _)

theorem foldr_max_mem (l : List Nat) (hl : l ≠ []) : l.foldr max 0 ∈ l := by
  induction l with
  | nil => cases hl rfl
  | cons a l ih =>
    simp only [List.foldr_cons]
    rcases eq_or_ne l [] with rfl | hne
    · simp
    · rcases Nat.le_total a (l.foldr max 0) with h | h
      · rw [Nat.max_eq_right h]
        exact List.mem_cons_of_mem _ (ih hne)
      · rw [Nat.max_eq_left h]
        exact List.mem_cons_self _ _

theorem foldr_max_eq_zero (l : List Nat) (h : ∀ x ∈ l, x = 0) :
    l.foldr max 0 = 0 := by
  induction l with
  | nil => rfl
  | cons a l ih =>
    simp only [List.foldr_cons]
    rw [h a (List.mem_cons_self _ _),
      ih (fun x hx => h x (List.mem_cons_of_mem _ hx))]
    rfl

theorem tdc_length (s t : List Rat) : (tdc s t).length = s.length := by
  simp [tdc]

theorem colVals_length (df : DataFrame) (j : Nat) :
    (colVals df j).length = df.rows.length := by
  simp [colVals]

theorem label_length (d : PsmDataset) : d.label.length = d.data.rows.length := by
  simp [PsmDataset.label, getCol]

theorem features_rows_length (d : PsmDataset) :
    d.features.rows.length = d.data.rows.length := by
  simp [PsmDataset.features]

/-- C4: `find_best_feature` returns a feature attaining the maximal count
of target rows with q-value at most the threshold (its raw values used
directly as scores), together with that count, and an adjusted label
vector demoting to 0 exactly the targets whose q-value at the chosen
feature exceeds the threshold. -/
theorem find_best_feature_spec (d : PsmDataset) (fdr : Rat) (f : String)
    (c : Nat) (t : List Rat)
    (h : d.find_best_feature fdr = some (f, c, t)) :
    (∀ j < d.features.cols.length,
      passingCount (tdc (colVals d.features j)
        (d.label.map (fun l => (l + 1) / 2))) d.label fdr ≤ c) ∧
    ∃ j, j < d.features.cols.length ∧
      f = d.features.cols.getD j "" ∧
      c = passingCount (tdc (colVals d.features j)
        (d.label.map (fun l => (l + 1) / 2))) d.label fdr ∧
      ∀ i < d.label.length,
        t.getD i 0 =
          if (tdc (colVals d.features j)
              (d.label.map (fun l => (l + 1) / 2))).getD i 0 > fdr ∧
              d.label.getD i 0 = 1
          then 0 else d.label.getD i 0 := by
  simp only [PsmDataset.find_best_feature] at h
  by_cases he : d.features.cols.isEmpty
  · rw [if_pos he] at h
    cases h
  · rw [if_neg he] at h
    simp only [Option.some.injEq, Prod.mk.injEq] at h
    obtain ⟨hf, hc, ht⟩ := h
    have hcne : d.features.cols ≠ [] := by
      simpa [List.isEmpty_iff] using he
    have hL : 0 < d.features.cols.length := List.length_pos.mpr hcne
    have hqlen : ((List.range d.features.cols.length).map
        (fun j => tdc (colVals d.features j)
          (d.label.map (fun l => (l + 1) / 2)))).length =
        d.features.cols.length := by
      simp
    have hnplen : (((List.range d.features.cols.length).map
        (fun j => tdc (colVals d.features j)
          (d.label.map (fun l => (l + 1) / 2)))).map
        (fun q => passingCount q d.label fdr)).length =
        d.features.cols.length := by
      simp
    have hqget : ∀ j (hj : j < d.features.cols.length),
        ((List.range d.features.cols.length).map
          (fun j => tdc (colVals d.features j)
            (d.label.map (fun l => (l + 1) / 2)))).getD j [] =
          tdc (colVals d.features j) (d.label.map (fun l => (l + 1) / 2)) := by
      intro j hj
      rw [List.getD_eq_getElem _ _ (by simpa using hj)]
      simp
    have hnpget : ∀ j (hj : j < d.features.cols.length),
        (((List.range d.features.cols.length).map
          (fun j => tdc (colVals d.features j)
            (d.label.map (fun l => (l + 1) / 2)))).map
          (fun q => passingCount q d.label fdr)).getD j 0 =
          passingCount (tdc (colVals d.features j)
            (d.label.map (fun l => (l + 1) / 2))) d.label fdr := by
      intro j hj
      rw [List.getD_eq_getElem _ _ (by simpa using hj)]
      simp
    have hnpne : (((List.range d.features.cols.length).map
        (fun j => tdc (colVals d.features j)
          (d.label.map (fun l => (l + 1) / 2)))).map
        (fun q => passingCount q d.label fdr)) ≠ [] := by
      intro hnil
      rw [← List.length_eq_zero] at hnil
      omega
    have hmmem := foldr_max_mem _ hnpne
    have hbilt := List.indexOf_lt_length.mpr hmmem
    have hbiL : (((List.range d.features.cols.length).map
        (fun j => tdc (colVals d.features j)
          (d.label.map (fun l => (l + 1) / 2)))).map
        (fun q => passingCount q d.label fdr)).indexOf
        ((((List.range d.features.cols.length).map
          (fun j => tdc (colVals d.features j)
            (d.label.map (fun l => (l + 1) / 2)))).map
          (fun q => passingCount q d.label fdr)).foldr max 0) <
        d.features.cols.length := by
      omega
    have hcm : c = (((List.range d.features.cols.length).map
        (fun j => tdc (colVals d.features j)
          (d.label.map (fun l => (l + 1) / 2)))).map
        (fun q => passingCount q d.label fdr)).foldr max 0 := by
      rw [← hc, List.getD_eq_getElem _ _ hbilt, List.getElem_indexOf]
    constructor
    · intro j hj
      rw [hcm]
      have hmem : (((List.range d.features.cols.length).map
          (fun j => tdc (colVals d.features j)
            (d.label.map (fun l => (l + 1) / 2)))).map
          (fun q => passingCount q d.label fdr)).getD j 0 ∈
          (((List.range d.features.cols.length).map
            (fun j => tdc (colVals d.features j)
              (d.label.map (fun l => (l + 1) / 2)))).map
            (fun q => passingCount q d.label fdr)) := by
        rw [List.getD_eq_getElem _ _ (by omega)]
        exact List.getElem_mem _
      have := le_foldr_max _ _ hmem
      rwa [hnpget j hj] at this
    · refine ⟨_, hbiL, hf.symm, ?_, ?_⟩
      · rw [← hc, hnpget _ hbiL]
      · intro i hi
        rw [← ht, hqget _ hbiL]
        have hbqlen : (tdc (colVals d.features
            ((((List.range d.features.cols.length).map
              (fun j => tdc (colVals d.features j)
                (d.label.map (fun l => (l + 1) / 2)))).map
              (fun q => passingCount q d.label fdr)).indexOf
              ((((List.range d.features.cols.length).map
                (fun j => tdc (colVals d.features j)
                  (d.label.map (fun l => (l + 1) / 2)))).map
                (fun q => passingCount q d.label fdr)).foldr max 0)))
            (d.label.map (fun l => (l + 1) / 2))).length = d.label.length := by
          rw [tdc_length, colVals_length, features_rows_length, label_length]
        have hi2 : i < ((d.label.zip (tdc (colVals d.features
            ((((List.range d.features.cols.length).map
              (fun j => tdc (colVals d.features j)
                (d.label.map (fun l => (l + 1) / 2)))).map
              (fun q => passingCount q d.label fdr)).indexOf
              ((((List.range d.features.cols.length).map
                (fun j => tdc (colVals d.features j)
                  (d.label.map (fun l => (l + 1) / 2)))).map
                (fun q => passingCount q d.label fdr)).foldr max 0)))
            (d.label.map (fun l => (l + 1) / 2)))).map
            (fun p => if p.2 > fdr ∧ p.1 = 1 then 0 else p.1)).length := by
          rw [List.length_map, List.length_zip, hbqlen]
          omega
        rw [List.getD_eq_getElem _ _ hi2]
        simp only [List.getElem_map, List.getElem_zip]
        have e1 : (tdc (colVals d.features
            ((((List.range d.features.cols.length).map
              (fun j => tdc (colVals d.features j)
                (d.label.map (fun l => (l + 1) / 2)))).map
              (fun q => passingCount q d.label fdr)).indexOf
              ((((List.range d.features.cols.length).map
                (fun j => tdc (colVals d.features j)
                  (d.label.map (fun l => (l + 1) / 2)))).map
                (fun q => passingCount q d.label fdr)).foldr max 0)))
            (d.label.map (fun l => (l + 1) / 2))).getD i 0 =
            (tdc (colVals d.features
            ((((List.range d.features.cols.length).map
              (fun j => tdc (colVals d.features j)
                (d.label.map (fun l => (l + 1) / 2)))).map
              (fun q => passingCount q d.label fdr)).indexOf
              ((((List.range d.features.cols.length).map
                (fun j => tdc (colVals d.features j)
                  (d.label.map (fun l => (l + 1) / 2)))).map
                (fun q => passingCount q d.label fdr)).foldr max 0)))
            (d.label.map (fun l => (l + 1) / 2))).get ⟨i, by omega⟩ := by
          rw [List.getD_eq_getElem _ _ (by omega)]
          simp
        have e2 : d.label.getD i 0 = d.label.get ⟨i, hi⟩ := by
          rw [List.getD_eq_getElem _ _ hi]
          simp
        simp only [e1, e2, List.get_eq_getElem]

/-- Witness for C4 at a concrete two-feature collection where the first
feature separates targets from decoys. -/
theorem find_best_feature_spec_witness :
    ∃ j, j < (⟨⟨["label", "scannr", "f1", "f2", "peptide", "proteins"],
      [[1, 1, 5, 0, 0, 0], [-1, 1, 1, 9, 0, 0], [1, 2, 4, 1, 0, 0],
       [-1, 2, 2, 8, 0, 0]]⟩⟩ : PsmDataset).features.cols.length ∧
    "f1" = (⟨⟨["label", "scannr", "f1", "f2", "peptide", "proteins"],
      [[1, 1, 5, 0, 0, 0], [-1, 1, 1, 9, 0, 0], [1, 2, 4, 1, 0, 0],
       [-1, 2, 2, 8, 0, 0]]⟩⟩ : PsmDataset).features.cols.getD j "" := by
  obtain ⟨-, j, hj, hfeq, -, -⟩ :=
    find_best_feature_spec (⟨⟨["label", "scannr", "f1", "f2", "peptide", "proteins"],
      [[1, 1, 5, 0, 0, 0], [-1, 1, 1, 9, 0, 0], [1, 2, 4, 1, 0, 0],
       [-1, 2, 2, 8, 0, 0]]⟩⟩ : PsmDataset) (1/2) "f1" 2 [1, -1, 1, -1]
      (by with_unfolding_all rfl)
  exact ⟨j, hj, hfeq⟩

/-- C5 counterexample: on a collection where no feature yields any passing
target at threshold 1/2, `find_best_feature` does not raise an error; it
returns the (first) feature with a passing count of 0 and all targets
demoted. -/
theorem find_best_feature_no_error_counterexample :
    (⟨⟨["label", "scannr", "f1", "peptide", "proteins"],
      [[1, 1, 1, 0, 0], [-1, 2, 2, 0, 0]]⟩⟩ : PsmDataset).find_best_feature (1/2) =
      some ("f1", 0, [0, -1]) ∧
    (∀ j < (⟨⟨["label", "scannr", "f1", "peptide", "proteins"],
      [[1, 1, 1, 0, 0], [-1, 2, 2, 0, 0]]⟩⟩ : PsmDataset).features.cols.length,
      passingCount (tdc (colVals (⟨⟨["label", "scannr", "f1", "peptide", "proteins"],
        [[1, 1, 1, 0, 0], [-1, 2, 2, 0, 0]]⟩⟩ : PsmDataset).features j)
        ((⟨⟨["label", "scannr", "f1", "peptide", "proteins"],
          [[1, 1, 1, 0, 0], [-1, 2, 2, 0, 0]]⟩⟩ : PsmDataset).label.map
          (fun l => (l + 1) / 2)))
        (⟨⟨["label", "scannr", "f1", "peptide", "proteins"],
          [[1, 1, 1, 0, 0], [-1, 2, 2, 0, 0]]⟩⟩ : PsmDataset).label (1/2) = 0) := by
  constructor
  · with_unfolding_all rfl
  · with_unfolding_all decide

/-- C5 amended: when no feature yields any target with q-value at most the
threshold, `find_best_feature` silently returns the first feature with a
passing count of 0 (instead of raising a no-viable-direction error). -/
theorem find_best_feature_no_passing (d : PsmDataset) (fdr : Rat)
    (hne : d.features.cols ≠ [])
    (hzero : ∀ j < d.features.cols.length,
      passingCount (tdc (colVals d.features j)
        (d.label.map (fun l => (l + 1) / 2))) d.label fdr = 0) :
    ∃ t, d.find_best_feature fdr =
      some (d.features.cols.getD 0 "", 0, t) := by
  have hL : 0 < d.features.cols.length := List.length_pos.mpr hne
  have hzall : ∀ x ∈ (((List.range d.features.cols.length).map
      (fun j => tdc (colVals d.features j)
        (d.label.map (fun l => (l + 1) / 2)))).map
      (fun q => passingCount q d.label fdr)), x = 0 := by
    intro x hx
    simp only [List.mem_map, List.mem_range] at hx
    obtain ⟨q, ⟨j, hj, hq⟩, hxq⟩ := hx
    rw [← hxq, ← hq]
    exact hzero j hj
  have hm0 : (((List.range d.features.cols.length).map
      (fun j => tdc (colVals d.features j)
        (d.label.map (fun l => (l + 1) / 2)))).map
      (fun q => passingCount q d.label fdr)).foldr max 0 = 0 :=
    foldr_max_eq_zero _ hzall
  have hnplen : (((List.range d.features.cols.length).map
      (fun j => tdc (colVals d.features j)
        (d.label.map (fun l => (l + 1) / 2)))).map
      (fun q => passingCount q d.label fdr)).length =
      d.features.cols.length := by
    simp
  have hnpne : (((List.range d.features.cols.length).map
      (fun j => tdc (colVals d.features j)
        (d.label.map (fun l => (l + 1) / 2)))).map
      (fun q => passingCount q d.label fdr)) ≠ [] := by
    intro hnil
    rw [← List.length_eq_zero] at hnil
    omega
  have hbi0 : (((List.range d.features.cols.length).map
      (fun j => tdc (colVals d.features j)
        (d.label.map (fun l => (l + 1) / 2)))).map
      (fun q => passingCount q d.label fdr)).indexOf 0 = 0 := by
    obtain ⟨a, l, hcons⟩ := List.exists_cons_of_ne_nil hnpne
    have ha : a = 0 := hzall a (by rw [hcons]; exact List.mem_cons_self _ _)
    rw [hcons, ha, List.indexOf_cons_self]
  have hnp0 : (((List.range d.features.cols.length).map
      (fun j => tdc (colVals d.features j)
        (d.label.map (fun l => (l + 1) / 2)))).map
      (fun q => passingCount q d.label fdr)).getD 0 0 = 0 := by
    apply hzall
    rw [List.getD_eq_getElem _ _ (by omega)]
    exact List.getElem_mem _
  have he : ¬ (d.features.cols.isEmpty = true) := by
    simpa [List.isEmpty_iff] using hne
  simp only [PsmDataset.find_best_feature]
  rw [if_neg he, hm0, hbi0, hnp0]
  exact ⟨_, rfl⟩

/-- Witness for the amended C5 at a concrete collection with a single
feature on which the only target fails the threshold. -/
theorem find_best_feature_no_passing_witness :
    ∃ t, (⟨⟨["label", "scannr", "f1", "peptide", "proteins"],
      [[1, 1, 1, 0, 0], [-1, 2, 2, 0, 0]]⟩⟩ : PsmDataset).find_best_feature (1/2) =
      some ((⟨⟨["label", "scannr", "f1", "peptide", "proteins"],
        [[1, 1, 1, 0, 0], [-1, 2, 2, 0, 0]]⟩⟩ : PsmDataset).features.cols.getD 0 "",
        0, t) :=
  find_best_feature_no_passing
    (⟨⟨["label", "scannr", "f1", "peptide", "proteins"],
      [[1, 1, 1, 0, 0], [-1, 2, 2, 0, 0]]⟩⟩ : PsmDataset) (1/2)
    (by decide) (by with_unfolding_all decide)

/-! ### C3: rows sharing a spectrum id are split across folds -/

/-- C3: the fold partitioner chunks the stored rows without grouping by
spectrum id, contradicting the documented contract (`brew`'s docstring:
"PSMs originating from the same mass spectrum are always in the same
fold").  Concretely: a four-row collection whose rows alternate between
scan numbers 1 and 2 is split with `folds = 2` into two test partitions
that both contain a row with scannr 1 (and both contain a row with
scannr 2). -/
theorem same_spectrum_split_across_folds :
    ∃ tr te, (⟨⟨["label", "scannr", "peptide", "proteins"],
      [[1, 1, 0, 0], [-1, 2, 0, 0], [1, 1, 0, 0], [-1, 2, 0, 0]]⟩⟩ : PsmDataset).split 2
      (fun _ => [0, 1]) (fun _ => [0, 1]) = .ok (tr, te) ∧
      te.length = 2 ∧
      (1 : Rat) ∈ getCol (te.getD 0 default).data "scannr" ∧
      (1 : Rat) ∈ getCol (te.getD 1 default).data "scannr" := by
  refine ⟨[⟨⟨["label", "scannr", "peptide", "proteins"],
      [[1, 1, 0, 0], [-1, 2, 0, 0]]⟩⟩,
      ⟨⟨["label", "scannr", "peptide", "proteins"], [[1, 1, 0, 0], [-1, 2, 0, 0]]⟩⟩],
    [⟨⟨["label", "scannr", "peptide", "proteins"], [[1, 1, 0, 0], [-1, 2, 0, 0]]⟩⟩,
      ⟨⟨["label", "scannr", "peptide", "proteins"], [[1, 1, 0, 0], [-1, 2, 0, 0]]⟩⟩],
    ?_, ?_, ?_, ?_⟩
  · with_unfolding_all rfl
  · with_unfolding_all rfl
  · with_unfolding_all decide
  · with_unfolding_all decide

/-! ### C7: the pooled fold-training path -/

/-- C7 (code bug), evaluated at the failing input: a single four-row
collection, two folds, and pickle snapshots `snap ≡ 1` — the common
schedule in which `Executor.map` finishes submitting (and the
`_make_train_sets` generator finishes overwriting the shared
`train_set._data`) before the queue-management thread pickles the work
items.  The sequential path trains fold 0 on fold 0's table and fold 1 on
fold 1's; the pool path trains both folds on fold 1's table, so the fold
models and the final score vectors differ — a divergence caused by the
shared-mutable-object broadcast, not by classifier nondeterminism. -/
theorem brew_pool_race_diverges :
    brewModelsSeq (fun t (_ : Rat) => (t.rows.getD 0 []).getD 1 0) 0
      (makeTrainSets [⟨⟨["label", "scannr", "peptide", "proteins"],
        [[1, 1, 0, 0], [-1, 2, 0, 0], [1, 3, 0, 0], [-1, 4, 0, 0]]⟩⟩]
        (brewTestIdx [⟨⟨["label", "scannr", "peptide", "proteins"],
          [[1, 1, 0, 0], [-1, 2, 0, 0], [1, 3, 0, 0], [-1, 4, 0, 0]]⟩⟩] 2
          (fun _ => [0, 1, 2, 3]))) = [3, 1] ∧
    brewModelsPoolRace (fun _ => 1)
      (fun t (_ : Rat) => (t.rows.getD 0 []).getD 1 0) 0
      (makeTrainSets [⟨⟨["label", "scannr", "peptide", "proteins"],
        [[1, 1, 0, 0], [-1, 2, 0, 0], [1, 3, 0, 0], [-1, 4, 0, 0]]⟩⟩]
        (brewTestIdx [⟨⟨["label", "scannr", "peptide", "proteins"],
          [[1, 1, 0, 0], [-1, 2, 0, 0], [1, 3, 0, 0], [-1, 4, 0, 0]]⟩⟩] 2
          (fun _ => [0, 1, 2, 3]))) = [1, 1] ∧
    brew (fun t (_ : Rat) => (t.rows.getD 0 []).getD 1 0)
      (fun (m : Rat) df => df.rows.map (fun _ => m)) (fun _ s _ => s) 0
      (.inl ⟨⟨["label", "scannr", "peptide", "proteins"],
        [[1, 1, 0, 0], [-1, 2, 0, 0], [1, 3, 0, 0], [-1, 4, 0, 0]]⟩⟩)
      2 (fun _ => [0, 1, 2, 3]) (1/100) =
      .ok (.inl (assignConfidence ⟨⟨["label", "scannr", "peptide", "proteins"],
        [[1, 1, 0, 0], [-1, 2, 0, 0], [1, 3, 0, 0], [-1, 4, 0, 0]]⟩⟩
        [3, 3, 1, 1])) ∧
    brewPoolRace (fun _ => 1) (fun t (_ : Rat) => (t.rows.getD 0 []).getD 1 0)
      (fun (m : Rat) df => df.rows.map (fun _ => m)) (fun _ s _ => s) 0
      (.inl ⟨⟨["label", "scannr", "peptide", "proteins"],
        [[1, 1, 0, 0], [-1, 2, 0, 0], [1, 3, 0, 0], [-1, 4, 0, 0]]⟩⟩)
      2 (fun _ => [0, 1, 2, 3]) (1/100) =
      .ok (.inl (assignConfidence ⟨⟨["label", "scannr", "peptide", "proteins"],
        [[1, 1, 0, 0], [-1, 2, 0, 0], [1, 3, 0, 0], [-1, 4, 0, 0]]⟩⟩
        [1, 1, 1, 1])) ∧
    ([3, 3, 1, 1] : List Rat) ≠ [1, 1, 1, 1] := by
  refine ⟨?_, ?_, ?_, ?_, ?_⟩
  · with_unfolding_all rfl
  · with_unfolding_all rfl
  · with_unfolding_all rfl
  · with_unfolding_all rfl
  · with_unfolding_all decide

/-! ### Shared facts about fold indices and score assembly -/

theorem mergeLast_flatten (cs : List (List α)) (num : Nat) :
    (mergeLast cs num).flatten = cs.flatten := by
  rcases List.eq_nil_or_concat cs with rfl | ⟨ds, b, rfl⟩
  · by_cases h : (List.getLastD ([] : List (List α)) []).length < num
    · simp [mergeLast, h]
    · simp [mergeLast, h]
  · rcases List.eq_nil_or_concat ds with rfl | ⟨es, a, rfl⟩
    · by_cases h : (([] : List (List α)).concat b |>.getLastD []).length < num
      · simp only [List.concat_eq_append, List.nil_append] at h ⊢
        simp [mergeLast, h]
      · simp only [List.concat_eq_append, List.nil_append] at h ⊢
        simp [mergeLast, h]
    · by_cases h : ((es.concat a).concat b |>.getLastD []).length < num
      · simp only [List.concat_eq_append] at h ⊢
        rw [mergeLast, if_pos (by simpa using h)]
        rw [List.dropLast_concat, List.dropLast_concat, List.getLastD_concat,
          List.getLastD_concat]
        simp
      · simp only [List.concat_eq_append] at h ⊢
        rw [mergeLast, if_neg (by simpa using h)]

theorem psmSplitIdx_flatten (n folds : Nat) (perm : List Nat)
    (hk : 0 < folds) : (psmSplitIdx n folds perm).flatten = perm := by
  rw [psmSplitIdx, mergeLast_flatten, arraySplit_flatten _ _ hk]

theorem argsort_length (v : List Nat) : (argsort v).length = v.length := by
  rw [argsort, (List.perm_insertionSort _ _).length_eq, List.length_range]

theorem predictScores_length (predict : M → DataFrame → List Rat)
    (calibrate : DataFrame → List Rat → Rat → List Rat) (dset : PsmDataset)
    (tIdx : List (List Nat)) (models : List M) (fdr : Rat) :
    (predictScores predict calibrate dset tIdx models fdr).length =
      tIdx.flatten.length := by
  simp only [predictScores]
  rw [List.length_map, argsort_length]

theorem brewTestIdx_length (psmsList : List PsmDataset) (folds : Nat)
    (sperm : Nat → List Nat) :
    (brewTestIdx psmsList folds sperm).length = psmsList.length := by
  simp [brewTestIdx]

theorem brewTestIdx_getD (psmsList : List PsmDataset) (folds : Nat)
    (sperm : Nat → List Nat) (c : Nat) (hc : c < psmsList.length) :
    (brewTestIdx psmsList folds sperm).getD c [] =
      psmSplitIdx ((psmsList.getD c default).data.rows.length) folds (sperm c) := by
  rw [brewTestIdx]
  exact getD_map_range _ _ _ _ hc

/-- C8 (code bug), evaluated at the failing input: a four-row and a
two-row collection passed together.  `models = map_fun(*map_args)` is a
one-shot iterator; the first collection's `_predict` exhausts it, the
second collection's `zip(test_idx, models)` is empty, and
`np.concatenate([])` raises `ValueError`, so the run aborts with no
results instead of returning one Confidence per collection as the
docstring promises.  A single collection still succeeds and is returned
unwrapped. -/
theorem brew_second_collection_raises :
    brew (fun t (m : Nat) => m + t.rows.length)
      (fun (m : Nat) df => df.rows.map (fun _ => (m : Rat)))
      (fun _ s _ => s) 0
      (.inr [⟨⟨["label", "scannr", "peptide", "proteins"],
        [[1, 1, 0, 0], [-1, 2, 0, 0], [1, 3, 0, 0], [-1, 4, 0, 0]]⟩⟩,
        ⟨⟨["label", "scannr", "peptide", "proteins"],
        [[1, 5, 0, 0], [-1, 6, 0, 0]]⟩⟩])
      2 (fun c => if c = 0 then [0, 1, 2, 3] else [0, 1]) (1/100) =
      .error "need at least one array to concatenate" ∧
    brew (fun t (m : Nat) => m + t.rows.length)
      (fun (m : Nat) df => df.rows.map (fun _ => (m : Rat)))
      (fun _ s _ => s) 0
      (.inl ⟨⟨["label", "scannr", "peptide", "proteins"],
        [[1, 1, 0, 0], [-1, 2, 0, 0], [1, 3, 0, 0], [-1, 4, 0, 0]]⟩⟩)
      2 (fun _ => [0, 1, 2, 3]) (1/100) =
      .ok (.inl (assignConfidence ⟨⟨["label", "scannr", "peptide", "proteins"],
        [[1, 1, 0, 0], [-1, 2, 0, 0], [1, 3, 0, 0], [-1, 4, 0, 0]]⟩⟩
        [2, 2, 2, 2])) := by
  constructor
  · with_unfolding_all rfl
  · with_unfolding_all rfl

/-! ### C9: brew never mutates caller-visible objects -/

theorem take_set_of_le (l : List α) (i : Nat) (a : α) (n : Nat) (h : n ≤ i) :
    (l.set i a).take n = l.take n := by
  apply List.ext_getElem
  · simp
  · intro m h1 h2
    have hm : m < n := by
      rw [List.length_take] at h2
      omega
    rw [List.getElem_take, List.getElem_take]
    exact List.getElem_set_ne (by omega) _

theorem take_eq_imp_le (l h : List α) (he : l.take h.length = h) :
    h.length ≤ l.length := by
  have hc := congrArg List.length he
  rw [List.length_take] at hc
  rcases Nat.le_total h.length l.length with hle | hle
  · exact hle
  · rw [Nat.min_eq_right hle] at hc
    omega

theorem foldl_preserves {σ α : Type _} (P : σ → Prop) (f : σ → α → σ)
    (l : List α) (s : σ) (h0 : P s) (hstep : ∀ s a, P s → P (f s a)) :
    P (l.foldl f s) := by
  induction l generalizing s with
  | nil => exact h0
  | cons a t ih => exact ih _ (hstep s a h0)

/-- `_make_train_sets` writes only to the freshly copied object, so every
prefix of the caller's heap is preserved. -/
theorem makeTrainSetsH_take_init (h : Heap) (psms : List Nat)
    (testIdx : List (List (List Nat))) (n : Nat) (hn : n ≤ h.length) :
    (makeTrainSetsH h psms testIdx).1.take n = h.take n := by
  simp only [makeTrainSetsH, copyObj, setData]
  refine foldl_preserves (fun s : Heap × List DataFrame => s.1.take n = h.take n)
    _ _ _ ?_ ?_
  · exact List.take_append_of_le_length hn
  · intro s a hs
    show ((s.1.set h.length default).set h.length _).take n = h.take n
    rw [take_set_of_le _ _ _ _ hn, take_set_of_le _ _ _ _ hn, hs]

/-- `_predict` writes only to the freshly copied object, so every prefix of
the caller's heap is preserved. -/
theorem predictH_take_init (predict : M → DataFrame → List Rat)
    (calibrate : DataFrame → List Rat → Rat → List Rat) (h : Heap)
    (dsetId : Nat) (testIdx : List (List Nat)) (models : List M)
    (testFdr : Rat) (n : Nat) (hn : n ≤ h.length) :
    (predictH predict calibrate h dsetId testIdx models testFdr).1.take n =
      h.take n := by
  simp only [predictH, copyObj, setData]
  refine foldl_preserves
    (fun s : Heap × List (List Rat) => s.1.take n = h.take n) _ _ _ ?_ ?_
  · exact List.take_append_of_le_length hn
  · intro s a hs
    show (s.1.set h.length _).take n = h.take n
    rw [take_set_of_le _ _ _ _ hn, hs]

/-- Per-fold model training deep-copies the template and mutates only the
copies, so the caller's model heap prefix is preserved. -/
theorem brewModelsH_take_init [Inhabited M] (fit : DataFrame → M → M)
    (mh : List M) (tmpl : Nat) (trainSets : List DataFrame) :
    (brewModelsH fit mh tmpl trainSets).1.take mh.length = mh := by
  simp only [brewModelsH]
  refine foldl_preserves
    (fun s : List M × List Nat => s.1.take mh.length = mh) _ _ _ ?_ ?_
  · exact List.take_length mh
  · intro s a hs
    have hle := take_eq_imp_le _ _ hs
    show ((s.1 ++ _).set s.1.length _).take mh.length = mh
    rw [take_set_of_le _ _ _ _ hle, List.take_append_of_le_length hle, hs]

/-- C9: a run of `brew` (heap model) never mutates caller-visible state:
the caller's dataset objects — the prefix of the heap that existed before
the run — are unchanged, because train and test views are materialized in
shallow copies, and the caller's `Model` template heap is unchanged,
because each fold trains on its own deep copy. -/
theorem brewH_frame [Inhabited M] (fit : DataFrame → M → M)
    (predict : M → DataFrame → List Rat)
    (calibrate : DataFrame → List Rat → Rat → List Rat) (h : Heap)
    (psms : List Nat) (mh : List M) (tmpl : Nat) (folds : Nat)
    (sperm : Nat → List Nat) (testFdr : Rat) :
    (brewH fit predict calibrate h psms mh tmpl folds sperm testFdr).1.take
      h.length = h ∧
    (brewH fit predict calibrate h psms mh tmpl folds sperm testFdr).2.1.take
      mh.length = mh := by
  simp only [brewH]
  constructor
  · have hinit : (makeTrainSetsH h psms ((List.range psms.length).map
        (fun c => psmSplitIdx (heapGet h (psms.getD c 0)).rows.length folds
          (sperm c)))).1.take h.length = h := by
      rw [makeTrainSetsH_take_init _ _ _ _ (le_refl _), List.take_length]
    refine foldl_preserves
      (fun s : Heap × List (List Rat) => s.1.take h.length = h) _ _ _ hinit ?_
    intro s a hs
    have hle := take_eq_imp_le _ _ hs
    show (predictH predict calibrate s.1 a.1 a.2 _ testFdr).1.take h.length = h
    rw [predictH_take_init _ _ _ _ _ _ _ _ hle, hs]
  · exact brewModelsH_take_init fit mh tmpl _

/-! ### C1: out-of-fold score re-assembly -/

/-- The test score row `j` receives: the calibrated score computed, in the
fold whose test set contains `j`, at `j`'s position within that fold. -/
def rowScore (blocks : List (List Nat)) (scores : List (List Rat)) (j : Nat) :
    Rat :=
  match blocks, scores with
  | b :: bs, s :: ss => if j ∈ b then s.getD (b.indexOf j) 0 else rowScore bs ss j
  | _, _ => 0

/-- `np.argsort` of a permutation of `range n` is its inverse: indexing the
permutation at the argsort value recovers the identity. -/
theorem argsort_getD_value (flat : List Nat) (n : Nat)
    (hp : flat.Perm (List.range n)) (j : Nat) (hj : j < n) :
    flat.getD ((argsort flat).getD j 0) 0 = j := by
  have hlen : flat.length = n := by
    rw [hp.length_eq, List.length_range]
  haveI ht : IsTotal Nat (fun i j => flat.getD i 0 ≤ flat.getD j 0) :=
    ⟨fun a b => Nat.le_total _ _⟩
  haveI htr : IsTrans Nat (fun i j => flat.getD i 0 ≤ flat.getD j 0) :=
    ⟨fun a b c hab hbc => Nat.le_trans hab hbc⟩
  have hA : (argsort flat).Perm (List.range n) := by
    rw [argsort, hlen]
    exact List.perm_insertionSort _ _
  have hAs : List.Sorted (fun i j => flat.getD i 0 ≤ flat.getD j 0)
      (argsort flat) := by
    rw [argsort]
    exact List.sorted_insertionSort _ _
  have hmap_sorted : List.Sorted (fun a b => a ≤ b)
      ((argsort flat).map (fun i => flat.getD i 0)) := by
    rw [List.Sorted, List.pairwise_map]
    exact hAs
  have hmap_perm : ((argsort flat).map (fun i => flat.getD i 0)).Perm
      (List.range n) := by
    have h1 : ((argsort flat).map (fun i => flat.getD i 0)).Perm
        ((List.range n).map (fun i => flat.getD i 0)) := hA.map _
    have h2 : (List.range n).map (fun i => flat.getD i 0) = flat := by
      rw [← hlen]
      exact map_getD_range flat 0
    rw [h2] at h1
    exact h1.trans hp
  have heq : (argsort flat).map (fun i => flat.getD i 0) = List.range n :=
    List.eq_of_perm_of_sorted hmap_perm hmap_sorted (List.sorted_le_range n)
  have hAlen : (argsort flat).length = n := by
    rw [hA.length_eq, List.length_range]
  have hjA : j < ((argsort flat).map (fun i => flat.getD i 0)).length := by
    rw [List.length_map, hAlen]
    omega
  have h3 := congrArg (fun l => List.getD l j 0) heq
  simp only at h3
  rw [List.getD_eq_getElem _ _ hjA, List.getElem_map] at h3
  have hr : (List.range n).getD j 0 = j := by
    rw [List.getD_eq_getElem _ _ (by simpa using hj)]
    simp
  rw [List.getD_eq_getElem _ _ (show j < (argsort flat).length by omega)]
  exact h3.trans hr

/-- The argsort value at any position of a permutation of `range n` is a
valid index into the permutation. -/
theorem argsort_getD_lt (flat : List Nat) (n : Nat)
    (hp : flat.Perm (List.range n)) (j : Nat) (hj : j < n) :
    (argsort flat).getD j 0 < flat.length := by
  have hlen : flat.length = n := by
    rw [hp.length_eq, List.length_range]
  have hA : (argsort flat).Perm (List.range n) := by
    rw [argsort, hlen]
    exact List.perm_insertionSort _ _
  have hAlen : (argsort flat).length = n := by
    rw [hA.length_eq, List.length_range]
  have hmem : (argsort flat).getD j 0 ∈ argsort flat := by
    rw [List.getD_eq_getElem _ _ (by omega)]
    exact List.getElem_mem _
  have := hA.mem_iff.mp hmem
  rw [List.mem_range] at this
  omega

/-- Looking up a concatenated position in the concatenated score lists
equals looking up the row in its own fold, whenever the per-fold score
lists match the per-fold index lists in length and the concatenated
indices have no duplicates. -/
theorem flatten_getD_rowScore (blocks : List (List Nat))
    (scores : List (List Rat)) (hlen : scores.length = blocks.length)
    (hbl : ∀ i < blocks.length,
      (scores.getD i []).length = (blocks.getD i []).length)
    (hnd : blocks.flatten.Nodup) (p j : Nat)
    (hp : p < blocks.flatten.length) (hj : blocks.flatten.getD p 0 = j) :
    scores.flatten.getD p 0 = rowScore blocks scores j := by
  induction blocks generalizing scores p with
  | nil => simp at hp
  | cons b bs ih =>
    match scores with
    | [] => simp at hlen
    | s :: ss =>
      simp only [List.flatten_cons] at hnd hj hp ⊢
      have hsl : s.length = b.length := by
        have := hbl 0 (by simp)
        simpa using this
      rw [List.nodup_append] at hnd
      by_cases hpb : p < b.length
      · rw [List.getD_append _ _ _ _ hpb] at hj
        have hjb : j ∈ b := by
          rw [← hj, List.getD_eq_getElem _ _ hpb]
          exact List.getElem_mem _
        simp only [rowScore]
        rw [if_pos hjb]
        have hidx : b.indexOf j < b.length := List.indexOf_lt_length.mpr hjb
        have hip : b.indexOf j = p := by
          have h1 : b[b.indexOf j] = j := List.getElem_indexOf hidx
          have h2 : b[p] = j := by
            rw [← hj, List.getD_eq_getElem _ _ hpb]
          exact hnd.1.getElem_inj_iff.mp (h1.trans h2.symm)
        rw [hip, List.getD_append _ _ _ _ (by omega)]
      · have hpb' : b.length ≤ p := by omega
        rw [List.getD_append_right _ _ _ _ hpb'] at hj
        have hptail : p - b.length < bs.flatten.length := by
          rw [List.length_append] at hp
          omega
        have hjtail : j ∈ bs.flatten := by
          rw [← hj, List.getD_eq_getElem _ _ hptail]
          exact List.getElem_mem _
        have hjb : j ∉ b := fun hb => (hnd.2.2 hb) hjtail
        simp only [rowScore]
        rw [if_neg hjb, List.getD_append_right _ _ _ _ (by omega), hsl]
        exact ih ss (by simpa using hlen)
          (fun i hi => by
            have := hbl (i + 1) (by simpa using Nat.succ_lt_succ hi)
            simpa using this)
          hnd.2.1 (p - b.length) hptail hj

/-- In a nodup concatenation, each present row index belongs to exactly
one block. -/
theorem countP_eq_one_of_nodup_flatten (blocks : List (List Nat)) (j : Nat)
    (hnd : blocks.flatten.Nodup) (hj : j ∈ blocks.flatten) :
    blocks.countP (fun b => decide (j ∈ b)) = 1 := by
  induction blocks with
  | nil => simp at hj
  | cons b bs ih =>
    simp only [List.flatten_cons] at hnd hj
    rw [List.nodup_append] at hnd
    rw [List.countP_cons]
    by_cases hb : j ∈ b
    · have hz : bs.countP (fun c => decide (j ∈ c)) = 0 := by
        rw [List.countP_eq_zero]
        intro c hc hjc
        exact (hnd.2.2 hb) (List.mem_flatten.mpr ⟨c, hc, by simpa using hjc⟩)
      rw [hz]
      simp [hb]
    · have hbs : j ∈ bs.flatten := by
        rcases List.mem_append.mp hj with h | h
        · exact absurd h hb
        · exact h
      rw [ih hnd.2.1 hbs]
      simp [hb]

theorem foldl_min_const (l : List Nat) (a : Nat) (h : ∀ x ∈ l, x = a) :
    l.foldl min a = a := by
  induction l with
  | nil => rfl
  | cons x t ih =>
    simp only [List.foldl_cons]
    rw [h x (List.mem_cons_self _ _), Nat.min_self]
    exact ih (fun y hy => h y (List.mem_cons_of_mem _ hy))

theorem zipFoldIdx_length (xss : List (List (List Nat))) (folds : Nat)
    (hne : xss ≠ []) (hall : ∀ x ∈ xss, x.length = folds) :
    (zipFoldIdx xss).length = folds := by
  match xss with
  | [] => exact absurd rfl hne
  | x :: rest =>
    simp only [zipFoldIdx, List.length_map, List.length_range]
    rw [hall x (List.mem_cons_self _ _)]
    apply foldl_min_const
    intro y hy
    rw [List.mem_map] at hy
    obtain ⟨z, hz, rfl⟩ := hy
    exact hall z (List.mem_cons_of_mem _ hz)

theorem psmSplitIdx_length (n folds : Nat) (perm : List Nat)
    (hk : 0 < folds) (hlen : perm.length = n) :
    (psmSplitIdx n folds perm).length = folds := by
  rw [psmSplitIdx, ← hlen, arraySplit_no_merge _ _ hk, arraySplit_length]

theorem predictFoldScores_length (predict : M → DataFrame → List Rat)
    (calibrate : DataFrame → List Rat → Rat → List Rat) (dset : PsmDataset)
    (tIdx : List (List Nat)) (models : List M) (fdr : Rat)
    (hm : tIdx.length ≤ models.length) :
    (predictFoldScores predict calibrate dset tIdx models fdr).length =
      tIdx.length := by
  simp only [predictFoldScores]
  rw [List.length_map, List.length_zip]
  omega

theorem predictFoldScores_getD_length (predict : M → DataFrame → List Rat)
    (calibrate : DataFrame → List Rat → Rat → List Rat) (dset : PsmDataset)
    (tIdx : List (List Nat)) (models : List M) (fdr : Rat)
    (hpred : ∀ (m : M) (df : DataFrame), (predict m df).length = df.rows.length)
    (hcal : ∀ (df : DataFrame) (s : List Rat) (q : Rat),
      (calibrate df s q).length = s.length)
    (hm : tIdx.length ≤ models.length) (i : Nat) (hi : i < tIdx.length) :
    ((predictFoldScores predict calibrate dset tIdx models fdr).getD i []).length
      = (tIdx.getD i []).length := by
  have hz : i < (tIdx.zip models).length := by
    rw [List.length_zip]
    omega
  simp only [predictFoldScores]
  rw [List.getD_eq_getElem _ _ (by simpa using hz), List.getElem_map,
    List.getElem_zip]
  rw [hcal, hpred]
  simp only [List.length_map]
  rw [List.getD_eq_getElem _ _ hi]

/-- Score lists matching the fold index lists block-by-block in length
have concatenations of equal length. -/
theorem flatten_length_eq (xs : List (List Rat)) (ys : List (List Nat))
    (hlen : xs.length = ys.length)
    (hbl : ∀ i < ys.length, (xs.getD i []).length = (ys.getD i []).length) :
    xs.flatten.length = ys.flatten.length := by
  rw [List.length_flatten, List.length_flatten]
  have hmaps : xs.map List.length = ys.map List.length := by
    apply List.ext_getElem (by simp [hlen])
    intro i h1 h2
    simp only [List.getElem_map]
    have hx : i < xs.length := by simpa using h1
    have hy : i < ys.length := by simpa using h2
    have h3 := hbl i hy
    rwa [List.getD_eq_getElem _ _ hx, List.getD_eq_getElem _ _ hy] at h3
  rw [hmaps]

/-- `_predict` on a still-full models iterator: when the iterator holds one
model per fold, the zip is complete, the score list is non-empty, and —
whenever the argsort positions are in bounds — the call returns the
re-assembled score vector and the drained iterator. -/
theorem predictOneShot_full (predict : M → DataFrame → List Rat)
    (calibrate : DataFrame → List Rat → Rat → List Rat) (dset : PsmDataset)
    (tIdx : List (List Nat)) (models : List M) (fdr : Rat)
    (hm : tIdx.length = models.length) (hne : tIdx ≠ [])
    (hbound : ∀ q ∈ argsort tIdx.flatten,
      q < (predictFoldScores predict calibrate dset tIdx models fdr).flatten.length) :
    predictOneShot predict calibrate dset tIdx models fdr =
      (.ok (predictScores predict calibrate dset tIdx models fdr),
       models.drop tIdx.length) := by
  show (if (predictFoldScores predict calibrate dset tIdx models fdr).isEmpty then
      (.error "need at least one array to concatenate" : Except String (List Rat))
    else npIndex (predictFoldScores predict calibrate dset tIdx models fdr).flatten
      (argsort tIdx.flatten),
    models.drop (tIdx.zip models).length) =
    (.ok (predictScores predict calibrate dset tIdx models fdr),
     models.drop tIdx.length)
  have hne2 : ¬ ((predictFoldScores predict calibrate dset tIdx models
      fdr).isEmpty = true) := by
    rw [List.isEmpty_iff]
    intro h0
    have h1 := predictFoldScores_length predict calibrate dset tIdx models fdr
      (le_of_eq hm)
    rw [h0] at h1
    simp only [List.length_nil] at h1
    exact hne (List.length_eq_zero.mp h1.symm)
  rw [if_neg hne2, Prod.mk.injEq]
  constructor
  · have hcond : ((argsort tIdx.flatten).all (fun p => decide
        (p < (predictFoldScores predict calibrate dset tIdx models
          fdr).flatten.length))) = true := by
      rw [List.all_eq_true]
      intro p hp
      exact decide_eq_true (hbound p hp)
    simp only [npIndex]
    rw [if_pos hcond]
    rfl
  · rw [List.length_zip, hm, Nat.min_self]

/-- C1 counterexample: a run of `brew` over two collections aborts with
`ValueError` — the one-shot fold-models iterator is exhausted by the first
collection's `_predict`, so the second collection's fold zip is empty and
`np.concatenate([])` raises — hence no collection receives an output score
vector, refuting the claim for multi-collection runs. -/
theorem brew_multi_collection_counterexample :
    brew (fun t (m : Nat) => m + t.rows.length)
      (fun (m : Nat) df => df.rows.map (fun _ => (m : Rat)))
      (fun _ s _ => s) 0
      (.inr [⟨⟨["label", "scannr", "peptide", "proteins"],
        [[1, 1, 0, 0], [-1, 2, 0, 0]]⟩⟩,
        ⟨⟨["label", "scannr", "peptide", "proteins"],
        [[1, 3, 0, 0], [-1, 4, 0, 0]]⟩⟩])
      2 (fun _ => [0, 1]) (1/100) =
      .error "need at least one array to concatenate" := by
  with_unfolding_all rfl

/-- C1 (amended): for every run of `brew` over a single PSM collection —
runs over two or more collections abort, since the one-shot models
iterator is exhausted by the first collection's `_predict` — every row
appears in exactly one fold's test set and receives exactly one test
score, and the output score vector, the concatenation of the per-fold
score subsets permuted back into stored row order by the inverse of the
concatenated test-index ordering, has the same length as the collection
and assigns to each row the calibrated score computed in that row's own
fold at the row's position within the fold. -/
theorem brew_single_scores_assembly (fit : DataFrame → M → M)
    (predict : M → DataFrame → List Rat)
    (calibrate : DataFrame → List Rat → Rat → List Rat) (model0 : M)
    (d : PsmDataset) (folds : Nat) (sperm : Nat → List Nat) (testFdr : Rat)
    (hk : 0 < folds)
    (hsperm : (sperm 0).Perm (List.range d.data.rows.length))
    (hpred : ∀ (m : M) (df : DataFrame), (predict m df).length = df.rows.length)
    (hcal : ∀ (df : DataFrame) (s : List Rat) (q : Rat),
      (calibrate df s q).length = s.length) :
    (∀ j < d.data.rows.length,
      (psmSplitIdx d.data.rows.length folds (sperm 0)).countP
        (fun b => decide (j ∈ b)) = 1) ∧
    ∃ out, brew fit predict calibrate model0 (.inl d) folds sperm testFdr =
        .ok (.inl (assignConfidence d out)) ∧
      out.length = d.data.rows.length ∧
      ∀ j < d.data.rows.length,
        out.getD j 0 = rowScore
          (psmSplitIdx d.data.rows.length folds (sperm 0))
          (predictFoldScores predict calibrate d
            (psmSplitIdx d.data.rows.length folds (sperm 0))
            (brewModelsSeq fit model0 (makeTrainSets [d]
              (brewTestIdx [d] folds sperm))) testFdr) j := by
  have hnlen : (sperm 0).length = d.data.rows.length :=
    hsperm.length_eq.trans (List.length_range _)
  have hflat : (psmSplitIdx d.data.rows.length folds (sperm 0)).flatten =
      sperm 0 := psmSplitIdx_flatten _ _ _ hk
  have hfp : (psmSplitIdx d.data.rows.length folds (sperm 0)).flatten.Perm
      (List.range d.data.rows.length) := by
    rw [hflat]
    exact hsperm
  have hnd : (psmSplitIdx d.data.rows.length folds (sperm 0)).flatten.Nodup :=
    hfp.nodup_iff.mpr (List.nodup_range _)
  have htlen : (psmSplitIdx d.data.rows.length folds (sperm 0)).length =
      folds := psmSplitIdx_length _ _ _ hk hnlen
  have hT0 : brewTestIdx [d] folds sperm =
      [psmSplitIdx d.data.rows.length folds (sperm 0)] := rfl
  have hallfold : ∀ x ∈ brewTestIdx [d] folds sperm, x.length = folds := by
    rw [hT0]
    intro x hx
    rw [List.mem_singleton.mp hx]
    exact htlen
  have hTne : brewTestIdx [d] folds sperm ≠ [] := by
    rw [hT0]
    simp
  have hmlen : (brewModelsSeq fit model0 (makeTrainSets [d]
      (brewTestIdx [d] folds sperm))).length = folds := by
    rw [brewModelsSeq, List.length_map, makeTrainSets, List.length_map,
      zipFoldIdx_length _ folds hTne hallfold]
  have hm : (psmSplitIdx d.data.rows.length folds (sperm 0)).length =
      (brewModelsSeq fit model0 (makeTrainSets [d]
        (brewTestIdx [d] folds sperm))).length := by
    rw [htlen, hmlen]
  have hfslen := predictFoldScores_length predict calibrate d
    (psmSplitIdx d.data.rows.length folds (sperm 0))
    (brewModelsSeq fit model0 (makeTrainSets [d]
      (brewTestIdx [d] folds sperm))) testFdr (le_of_eq hm)
  have hfsbl := predictFoldScores_getD_length predict calibrate d
    (psmSplitIdx d.data.rows.length folds (sperm 0))
    (brewModelsSeq fit model0 (makeTrainSets [d]
      (brewTestIdx [d] folds sperm))) testFdr hpred hcal (le_of_eq hm)
  have hsflen : (predictFoldScores predict calibrate d
      (psmSplitIdx d.data.rows.length folds (sperm 0))
      (brewModelsSeq fit model0 (makeTrainSets [d]
        (brewTestIdx [d] folds sperm))) testFdr).flatten.length =
      (psmSplitIdx d.data.rows.length folds (sperm 0)).flatten.length :=
    flatten_length_eq _ _ hfslen hfsbl
  have hflatn : (psmSplitIdx d.data.rows.length folds
      (sperm 0)).flatten.length = d.data.rows.length := by
    rw [hflat, hnlen]
  have hAperm : (argsort (psmSplitIdx d.data.rows.length folds
      (sperm 0)).flatten).Perm (List.range (psmSplitIdx d.data.rows.length
      folds (sperm 0)).flatten.length) := by
    rw [argsort]
    exact List.perm_insertionSort _ _
  have hbound : ∀ q ∈ argsort (psmSplitIdx d.data.rows.length folds
      (sperm 0)).flatten,
      q < (predictFoldScores predict calibrate d
        (psmSplitIdx d.data.rows.length folds (sperm 0))
        (brewModelsSeq fit model0 (makeTrainSets [d]
          (brewTestIdx [d] folds sperm))) testFdr).flatten.length := by
    intro q hq
    have h1 := hAperm.mem_iff.mp hq
    rw [List.mem_range] at h1
    omega
  have hne2 : psmSplitIdx d.data.rows.length folds (sperm 0) ≠ [] := by
    intro h0
    rw [h0] at htlen
    simp only [List.length_nil] at htlen
    omega
  have hone := predictOneShot_full predict calibrate d
    (psmSplitIdx d.data.rows.length folds (sperm 0))
    (brewModelsSeq fit model0 (makeTrainSets [d]
      (brewTestIdx [d] folds sperm))) testFdr hm hne2 hbound
  have hiter : brewScoresIter predict calibrate
      ([d].zip (brewTestIdx [d] folds sperm))
      (brewModelsSeq fit model0 (makeTrainSets [d]
        (brewTestIdx [d] folds sperm))) testFdr =
      .ok [predictScores predict calibrate d
        (psmSplitIdx d.data.rows.length folds (sperm 0))
        (brewModelsSeq fit model0 (makeTrainSets [d]
          (brewTestIdx [d] folds sperm))) testFdr] := by
    rw [hT0]
    rw [hT0] at hone
    show brewScoresIter predict calibrate
      [(d, psmSplitIdx d.data.rows.length folds (sperm 0))] _ testFdr = _
    simp only [brewScoresIter]
    rw [hone]
  have hbrew : brew fit predict calibrate model0 (.inl d) folds sperm
      testFdr = .ok (.inl (assignConfidence d
        (predictScores predict calibrate d
          (psmSplitIdx d.data.rows.length folds (sperm 0))
          (brewModelsSeq fit model0 (makeTrainSets [d]
            (brewTestIdx [d] folds sperm))) testFdr))) := by
    simp only [brew, inputList]
    rw [hiter]
    rfl
  constructor
  · intro j hj
    exact countP_eq_one_of_nodup_flatten _ _ hnd
      (hfp.mem_iff.mpr (List.mem_range.mpr hj))
  refine ⟨_, hbrew, ?_, ?_⟩
  · rw [predictScores_length, hflatn]
  · intro j hj
    simp only [predictScores]
    have hjmap : j < ((argsort (psmSplitIdx d.data.rows.length folds
        (sperm 0)).flatten).map
        (fun q => (predictFoldScores predict calibrate d
          (psmSplitIdx d.data.rows.length folds (sperm 0))
          (brewModelsSeq fit model0 (makeTrainSets [d]
            (brewTestIdx [d] folds sperm))) testFdr).flatten.getD q
          0)).length := by
      rw [List.length_map, argsort_length, hflatn]
      omega
    rw [List.getD_eq_getElem _ _ hjmap, List.getElem_map]
    have hjb2 : j < (argsort (psmSplitIdx d.data.rows.length folds
        (sperm 0)).flatten).length := by
      rw [argsort_length, hflatn]
      omega
    have hgj : (argsort (psmSplitIdx d.data.rows.length folds
        (sperm 0)).flatten).getD j 0 =
        (argsort (psmSplitIdx d.data.rows.length folds (sperm 0)).flatten)[j] :=
      List.getD_eq_getElem _ _ hjb2
    have hval := argsort_getD_value _ _ hfp j hj
    have hlt := argsort_getD_lt _ _ hfp j hj
    rw [← hgj]
    exact flatten_getD_rowScore _ _ hfslen hfsbl hnd _ j hlt hval

/-- Witness for the amended C1: a single four-row collection with two
folds: row 0 lies in exactly one test partition and the run returns a
single result whose score vector has length 4. -/
theorem brew_single_scores_assembly_witness :
    (psmSplitIdx 4 2 [0, 1, 2, 3]).countP (fun b => decide ((0 : Nat) ∈ b)) = 1 ∧
    ∃ out, brew (fun t (m : Nat) => m + t.rows.length)
        (fun (m : Nat) df => df.rows.map (fun _ => (m : Rat)))
        (fun _ s _ => s) 0
        (.inl ⟨⟨["label", "scannr", "peptide", "proteins"],
          [[1, 1, 0, 0], [-1, 2, 0, 0], [1, 3, 0, 0], [-1, 4, 0, 0]]⟩⟩)
        2 (fun _ => [0, 1, 2, 3]) (1/100) =
        .ok (.inl (assignConfidence ⟨⟨["label", "scannr", "peptide", "proteins"],
          [[1, 1, 0, 0], [-1, 2, 0, 0], [1, 3, 0, 0], [-1, 4, 0, 0]]⟩⟩ out)) ∧
      out.length = 4 := by
  obtain ⟨h1, out, hb, hl, -⟩ := brew_single_scores_assembly
    (fun t (m : Nat) => m + t.rows.length)
    (fun (m : Nat) df => df.rows.map (fun _ => (m : Rat))) (fun _ s _ => s) 0
    (⟨⟨["label", "scannr", "peptide", "proteins"],
      [[1, 1, 0, 0], [-1, 2, 0, 0], [1, 3, 0, 0], [-1, 4, 0, 0]]⟩⟩ : PsmDataset)
    2 (fun _ => [0, 1, 2, 3]) (1/100)
    (by omega) (by decide)
    (fun (m : Nat) df => by rw [List.length_map]) (fun df s q => rfl)
  exact ⟨by simpa using h1 0 (by decide), out, hb, by simpa using hl⟩

end Mokapot
